/-
  Verification of the edgetest environment-lifecycle and constraint-rewriting
  core (capitalone/edgetest).

  Shallow embedding notes:
  * Python strings are modelled as Lean `String` at the API boundary and as
    `List Char` internally.  `str.strip` is `pyTrim`, `str.split(sep)` for a
    one-character separator is `splitChar`, `str.replace("_", "-")` is a
    per-character map (exact for a one-character pattern), `str.lower` is
    per-character ASCII lowering.
  * `packaging.requirements.Requirement` / `packaging.specifiers` are modelled
    by `Req` / `Spec` with a parser (`parseReqChars`) for the comma-separated
    `name[extras]op-version` grammar (environment markers and URL requirements
    are not modelled; constructing an invalid specifier is modelled as an
    error, as `packaging` raises `InvalidSpecifier`).  `SpecifierSet` stores a
    `frozenset` and its `str` joins the clause strings sorted lexicographically
    with duplicates collapsed; this is modelled by `sortUK` (sort + dedup).
  * `Specifier & Specifier` raises `TypeError` in `packaging` (only
    `SpecifierSet.__and__` exists, and it rejects a `Specifier` argument), so
    the `==` branch of `upgrade_requirements` is modelled as an error.
  * Raising an exception is modelled as `Except.error`; subprocess execution
    and the pluggy hook relay are modelled by explicit inputs (a `Hook` record
    of step outcomes, an installed-package listing, an exit code).
-/
import Mathlib

namespace Edgetest

/-! ## Character classes and basic Python-string operations -/

def isWs (c : Char) : Bool :=
  c = ' ' || c = '\t' || c = '\n' || c = '\r'

/-- Characters allowed in a distribution name (PEP 508 name: ASCII
alphanumerics plus `-`, `_`, `.`). -/
def isNameChar (c : Char) : Bool :=
  c.isAlphanum || c = '-' || c = '_' || c = '.'

/-- Characters that can start a version-comparison operator. -/
def isOpStart (c : Char) : Bool :=
  c = '<' || c = '>' || c = '=' || c = '!' || c = '~'

/-- Characters allowed in a PEP 440 version text (letters, digits,
`.`, `*`, `+`, `!`, `-`, `_`). -/
def isVersionChar (c : Char) : Bool :=
  c.isAlphanum || c = '.' || c = '*' || c = '+' || c = '!' || c = '-' || c = '_'

/-- `str.strip()` on a character list. -/
def pyTrim (l : List Char) : List Char :=
  ((l.dropWhile isWs).reverse.dropWhile isWs).reverse

/-- `str.split(sep)` for a one-character separator: always returns
one more piece than there are separators. -/
def splitChar (sep : Char) : List Char → List (List Char)
  | [] => [[]]
  | c :: rest =>
    let r := splitChar sep rest
    if c = sep then [] :: r
    else match r with
      | [] => [[c]]
      | p :: ps => (c :: p) :: ps

/-- Strict lexicographic order on character lists by code point
(Python `<` on `str`, restricted to the ASCII texts we handle). -/
def ltB : List Char → List Char → Bool
  | [], [] => false
  | [], _ :: _ => true
  | _ :: _, [] => false
  | a :: as, b :: bs =>
    if a.toNat < b.toNat then true
    else if b.toNat < a.toNat then false
    else ltB as bs

/-- Insert into a sorted duplicate-free list, keyed by `k`
(used to model `sorted(frozenset(...))`). -/
def insUK (k : α → List Char) (x : α) : List α → List α
  | [] => [x]
  | y :: ys =>
    if k x = k y then y :: ys
    else if ltB (k x) (k y) then x :: y :: ys
    else y :: insUK k x ys

/-- Sorted duplicate-free list of `l`, keyed by `k`. -/
def sortUK (k : α → List Char) (l : List α) : List α :=
  l.foldr (insUK k) []

/-- Python `dict` built from an association list: later bindings win. -/
def lookupLast (key : List Char) : List (List Char × List Char) → Option (List Char)
  | [] => none
  | (n, v) :: rest =>
    match lookupLast key rest with
    | some r => some r
    | none => if n = key then some v else none

/-! ## Requirements and specifiers -/

inductive Op where
  | lt | le | eq | ne | ge | gt | compat
  deriving DecidableEq, Repr

def opChars : Op → List Char
  | .lt => ['<']
  | .le => ['<', '=']
  | .eq => ['=', '=']
  | .ne => ['!', '=']
  | .ge => ['>', '=']
  | .gt => ['>']
  | .compat => ['~', '=']

structure Spec where
  op : Op
  version : List Char
  deriving DecidableEq, Repr

/-- `str(Specifier)`: operator text followed by version text, no spaces. -/
def specStr (sp : Spec) : List Char :=
  opChars sp.op ++ sp.version

structure Req where
  name : List Char
  extras : List (List Char)
  specs : List Spec
  deriving DecidableEq, Repr

/-- Version-text validity (what `packaging` enforces via the specifier
regular expression, abstracted to a character class). -/
def versionOk (v : List Char) : Bool :=
  match v with
  | [] => false
  | c :: _ => v.all isVersionChar && !isOpStart c

/-- Build a specifier after the operator was recognised: the version text is
stripped and validated. -/
def mkSpec (op : Op) (rest : List Char) : Option Spec :=
  if versionOk (pyTrim rest) then some ⟨op, pyTrim rest⟩ else none

/-- Parse one comparison clause (one `Specifier`). -/
def parseSpecChars (clause : List Char) : Option Spec :=
  match pyTrim clause with
  | '<' :: '=' :: rest => mkSpec .le rest
  | '>' :: '=' :: rest => mkSpec .ge rest
  | '=' :: '=' :: rest => mkSpec .eq rest
  | '!' :: '=' :: rest => mkSpec .ne rest
  | '~' :: '=' :: rest => mkSpec .compat rest
  | '<' :: rest => mkSpec .lt rest
  | '>' :: rest => mkSpec .gt rest
  | _ => none

/-- Parse one extra name. -/
def parseExtra (e : List Char) : Option (List Char) :=
  if pyTrim e ≠ [] && (pyTrim e).all isNameChar then some (pyTrim e) else none

/-- Parse the bracketed extras text. -/
def parseExtrasChars (inner : List Char) : Option (List (List Char)) :=
  if pyTrim inner = [] then some []
  else (splitChar ',' inner).mapM parseExtra

/-- Parse the text following the name: an optional bracketed extras group,
returning the extras together with the remaining text. -/
def parseAfterName (r1 : List Char) : Option (List (List Char) × List Char) :=
  match r1 with
  | '[' :: t =>
    (match t.dropWhile (fun c => c ≠ ']') with
     | ']' :: r =>
       (parseExtrasChars (t.takeWhile (fun c => c ≠ ']'))).map fun ex => (ex, r)
     | _ => none)
  | _ => some ([], r1)

/-- Parse one requirement line (one `packaging.requirements.Requirement`).
Environment markers and URL requirements are not modelled. -/
def parseReqChars (line : List Char) : Option Req :=
  if (pyTrim line).takeWhile isNameChar = [] then none
  else
    match parseAfterName ((pyTrim line).dropWhile isNameChar) with
    | none => none
    | some (extras, r2) =>
      if pyTrim r2 = [] then some ⟨(pyTrim line).takeWhile isNameChar, extras, []⟩
      else
        match (splitChar ',' r2).mapM parseSpecChars with
        | none => none
        | some specs => some ⟨(pyTrim line).takeWhile isNameChar, extras, specs⟩

/-- `str(Requirement)`: name, sorted extras in brackets when present, then
the clause strings sorted lexicographically with duplicates collapsed
(`SpecifierSet` keeps a `frozenset` and `str` sorts it). -/
def printReqChars (r : Req) : List Char :=
  r.name
    ++ (if r.extras = [] then []
        else '[' :: (List.intercalate [','] (sortUK id r.extras)) ++ [']'])
    ++ List.intercalate [','] ((sortUK specStr r.specs).map specStr)

/-! ## `upgrade_requirements` (edgetest/utils.py lines 386-441) -/

/-- The clause-rewriting loop of `upgrade_requirements`: iterates the parsed
clauses left to right, mutating a copy (`acc`) by index:
`<= V` is overwritten with `<= ceiling`; `< V` is overwritten with `!= V` and
`<= ceiling` is appended; `== V` evaluates `Specifier & Specifier`, which
raises `TypeError` in `packaging` (only `SpecifierSet` defines `__and__`, and
it rejects a `Specifier` operand).  Constructing a specifier from an invalid
ceiling raises `InvalidSpecifier`. -/
def rewriteGo (ceiling : List Char) : List Spec → Nat → List Spec →
    Except String (List Spec)
  | [], _, acc => .ok acc
  | sp :: rest, i, acc =>
    match sp.op with
    | .le =>
      if versionOk ceiling then
        rewriteGo ceiling rest (i + 1) (acc.set i ⟨.le, ceiling⟩)
      else .error "InvalidSpecifier"
    | .lt =>
      if versionOk ceiling then
        rewriteGo ceiling rest (i + 1) ((acc.set i ⟨.ne, sp.version⟩) ++ [⟨.le, ceiling⟩])
      else .error "InvalidSpecifier"
    | .eq =>
      .error "TypeError: unsupported operand type(s) for &: 'Specifier' and 'Specifier'"
    | _ => rewriteGo ceiling rest (i + 1) acc

def rewriteSpecs (ceiling : List Char) (specs : List Spec) :
    Except String (List Spec) :=
  rewriteGo ceiling specs 0 specs

/-- A requirements line survives the comprehension filter when its stripped
text is non-empty and does not start with `#`. -/
def keepLine (l : List Char) : Bool :=
  !(pyTrim l = []) && !((pyTrim l).head? = some '#')

/-- `Requirement(val)`: parse failure raises `InvalidRequirement`. -/
def parseReqOrError (l : List Char) : Except String Req :=
  match parseReqChars l with
  | some r => Except.ok r
  | none => Except.error "InvalidRequirement"

/-- The per-requirement body of the `upgrade_requirements` loop: a
requirement whose name is a key of the upgrade dict has its clauses
rewritten, all other requirements pass through untouched. -/
def rewritePkg (upgradedPackages : List (List Char × List Char)) (r : Req) :
    Except String Req :=
  match lookupLast r.name upgradedPackages with
  | none => Except.ok r
  | some ceiling =>
    match rewriteSpecs ceiling r.specs with
    | .error e => .error e
    | .ok sp => .ok { r with specs := sp }

/-- `upgrade_requirements` on the buffer string (the file-reading branch is
I/O and is not modelled).  Every line is re-serialised via
`str(Requirement)` and the lines are rejoined with newlines. -/
def upgradeRequirementsChars (cfg : List Char)
    (upgradedPackages : List (List Char × List Char)) :
    Except String (List Char) :=
  match ((splitChar '\n' cfg).filter keepLine).mapM parseReqOrError with
  | .error e => .error e
  | .ok pkgs =>
    match pkgs.mapM (rewritePkg upgradedPackages) with
    | .error e => .error e
    | .ok pkgs2 => .ok (List.intercalate ['\n'] (pkgs2.map printReqChars))

def upgrade_requirements (cfg : String)
    (upgradedPackages : List (String × String)) : Except String String :=
  (upgradeRequirementsChars cfg.data
    (upgradedPackages.map fun p => (p.1.data, p.2.data))).map String.mk


/-- The requirement name parsed from one kept line, in file order: the
observable used to state that `upgrade_requirements` never reorders lines. -/
def reqNameOfLine (l : List Char) : Option (List Char) :=
  (parseReqChars l).map fun r => r.name

/-- The in-order list of requirement names of the kept (non-blank,
non-comment) lines of a requirements text. -/
def linesNames (cfg : List Char) : List (Option (List Char)) :=
  ((splitChar '\n' cfg).filter keepLine).map reqNameOfLine

/-! ## `_isin_case_dashhyphen_ins` (edgetest/utils.py lines 520-535) -/

/-- `str.replace("_", "-")` for the one-character pattern is a per-character
map. -/
def replUnderscore (c : Char) : Char :=
  if c = '_' then '-' else c

/-- `a.replace("_", "-").lower()`. -/
def dashLower (l : List Char) : List Char :=
  (l.map replUnderscore).map Char.toLower

/-- `_isin_case_dashhyphen_ins(a, vals)`. -/
def isinCaseDashhyphenInsChars (a : List Char) (vals : List (List Char)) : Bool :=
  vals.any fun b => dashLower a = dashLower b

def isin_case_dashhyphen_ins (a : String) (vals : List String) : Bool :=
  isinCaseDashhyphenInsChars a.data (vals.map String.data)

/-! ## `get_lower_bounds` (edgetest/utils.py lines 538-585) -/

/-- Outcomes of the external calls made by `setup`: for the pluggy-hook /
subprocess steps, `true` means the call returns normally and `false` means it
raises the `RuntimeError` that `setup` catches; `chdir_ok` is the outcome of
the `os.chdir` performed by the `pushd` context manager (utils.py lines
55-69), whose failure (`FileNotFoundError`, an `OSError`) is caught nowhere
in `setup`. -/
structure Hook where
  create_ok : Bool
  chdir_ok : Bool
  install_deps_ok : Bool
  install_local_ok : Bool
  run_update_ok : Bool
  run_install_lower_ok : Bool
  deriving DecidableEq, Repr

inductive Step where
  | createEnv | installDeps | installLocal | runUpdate | runInstallLower
  deriving DecidableEq, Repr

def stepOk (h : Hook) : Step → Bool
  | .createEnv => h.create_ok
  | .installDeps => h.install_deps_ok
  | .installLocal => h.install_local_ok
  | .runUpdate => h.run_update_ok
  | .runInstallLower => h.run_install_lower_ok

structure TestPackage where
  envname : String
  upgrade : Option (List String)
  lower : Option (List String)
  package_dir : String
  setup_status : Bool
  status : Bool
  deriving DecidableEq, Repr

/-- `TestPackage.__init__`: raises `ValueError` unless exactly one of
`upgrade` and `lower` is non-`None`; `package_dir or "."` treats an empty
string as absent. -/
def TestPackage.init (envname : String) (upgrade : Option (List String))
    (lower : Option (List String)) (package_dir : Option String) :
    Except String TestPackage :=
  if (upgrade = none ∧ lower = none) ∨ (upgrade ≠ none ∧ lower ≠ none) then
    .error "Exactly one of upgrade and lower must be provided."
  else
    .ok ⟨envname, upgrade, lower,
      (match package_dir with
       | none => "."
       | some s => if s = "" then "." else s),
      false, false⟩

/-- Python truthiness of an optional list (`if deps:`, `if self.upgrade:`). -/
def truthyOpt : Option (List α) → Bool
  | none => false
  | some l => !l.isEmpty

/-- The single-quote character, written by code point. -/
def squote : Char := Char.ofNat 39

/-- The tokenizer states of `shlex.split` in POSIX mode: outside any quote,
right after a plain-state escape character, inside single quotes (which admit
no escapes), inside double quotes, and right after an escape inside double
quotes. -/
inductive ShMode where
  | plain | escPlain | single | double | escDouble
  deriving DecidableEq, Repr

/-- The failure behaviour of `shlex.split`: the scan either ends cleanly or
raises `ValueError("No closing quotation")` on an unterminated quote and
`ValueError("No escaped character")` on a trailing escape (also inside a
double-quoted section, where a backslash escapes the following character). -/
def shlexScan : ShMode → List Char → Option String
  | .plain, [] => none
  | .plain, c :: rest =>
    if c = '\\' then shlexScan .escPlain rest
    else if c = squote then shlexScan .single rest
    else if c = '"' then shlexScan .double rest
    else shlexScan .plain rest
  | .escPlain, [] => some "No escaped character"
  | .escPlain, _ :: rest => shlexScan .plain rest
  | .single, [] => some "No closing quotation"
  | .single, c :: rest =>
    if c = squote then shlexScan .plain rest else shlexScan .single rest
  | .double, [] => some "No closing quotation"
  | .double, c :: rest =>
    if c = '"' then shlexScan .plain rest
    else if c = '\\' then shlexScan .escDouble rest
    else shlexScan .double rest
  | .escDouble, [] => some "No escaped character"
  | .escDouble, _ :: rest => shlexScan .double rest

/-- The first `ValueError` raised by the uncaught list comprehension
`split = [shlex.split(dep) for dep in deps]` (core.py line 152), if any. -/
def firstShlexErr : List String → Option String
  | [] => none
  | d :: ds =>
    match shlexScan .plain d.data with
    | some e => some e
    | none => firstShlexErr ds

/-- `TestPackage.setup`: the translation of the step-by-step control flow,
returning the mutated package together with the list of provisioning steps
that were attempted.  Each step's `RuntimeError` is caught, but two paths
raise out of `setup` uncaught: the `os.chdir` inside the `pushd` context
manager (entered before any install step), and — when `deps` is truthy —
the `shlex.split(dep)` list comprehension, which sits outside the inner
`try` and raises `ValueError` on a malformed dependency string.  The
additional-dependency install runs only when `deps` is truthy; the final
step is `run_update` when `self.upgrade` is truthy and otherwise the
lower-bound branch, whose log call evaluates `", ".join(self.lower)` and
therefore raises `TypeError` when `self.lower` is `None`. -/
def TestPackage.setup (tp : TestPackage) (h : Hook)
    (deps : Option (List String)) (skip : Bool) :
    Except String (TestPackage × List Step) :=
  if skip then .ok ({ tp with setup_status := true }, [])
  else if !h.create_ok then
    .ok ({ tp with setup_status := false }, [.createEnv])
  else if !h.chdir_ok then
    .error "FileNotFoundError: [Errno 2] No such file or directory"
  else
    match (if truthyOpt deps then firstShlexErr (deps.getD []) else none) with
    | some e => .error ("ValueError: " ++ e)
    | none =>
      if truthyOpt deps && !h.install_deps_ok then
        .ok ({ tp with setup_status := false }, [.createEnv, .installDeps])
      else
        let t1 := [Step.createEnv] ++ (if truthyOpt deps then [Step.installDeps] else [])
        if !h.install_local_ok then
          .ok ({ tp with setup_status := false }, t1 ++ [.installLocal])
        else if truthyOpt tp.upgrade then
          .ok ({ tp with setup_status := h.run_update_ok },
            t1 ++ [.installLocal, .runUpdate])
        else
          match tp.lower with
          | none => .error "TypeError: can only join an iterable (got type NoneType)"
          | some _ =>
            .ok ({ tp with setup_status := h.run_install_lower_ok },
              t1 ++ [.installLocal, .runInstallLower])

/-- The steps `setup` is supposed to perform for this package (environment
creation, optional extra-dependency install, local install, then the
upgrade-or-lower application). -/
def plannedSteps (tp : TestPackage) (deps : Option (List String)) : List Step :=
  [Step.createEnv] ++ (if truthyOpt deps then [Step.installDeps] else [])
    ++ [Step.installLocal]
    ++ [if truthyOpt tp.upgrade then Step.runUpdate else Step.runInstallLower]

/-- Execute steps in order, stopping right after the first failing one. -/
def runSteps (h : Hook) : List Step → List Step
  | [] => []
  | s :: rest => if stepOk h s then s :: runSteps h rest else [s]

/-- `TestPackage.run_tests`: raises unless setup succeeded, otherwise records
`status = (returncode == 0)` and returns the raw exit code. -/
def TestPackage.run_tests (tp : TestPackage) (returncode : Int) :
    Except String (TestPackage × Int) :=
  if !tp.setup_status then
    .error "Environment setup failed. Cannot run tests."
  else
    .ok ({ tp with status := decide (returncode = 0) }, returncode)

/-! ## `upgraded_packages` / `lowered_packages` (edgetest/core.py 230-271) -/

/-- An entry of the `pip list --format json` output. -/
structure PkgVer where
  name : String
  version : String
  deriving DecidableEq, Repr

/-- `pkg.split("[")[0]`: drop an extras-selector suffix. -/
def stripExtrasSuffix (s : String) : String :=
  String.mk (match splitChar '[' s.data with
    | p :: _ => p
    | [] => [])

/-- `TestPackage.upgraded_packages`, with the installed-package listing
(the `pip list` subprocess output) supplied as an input. -/
def TestPackage.upgraded_packages (tp : TestPackage) (installed : List PkgVer) :
    List PkgVer :=
  match tp.upgrade with
  | none => []
  | some up =>
    let upWoExtras := up.map stripExtrasSuffix
    installed.filter fun p =>
      isin_case_dashhyphen_ins p.name upWoExtras

/-- `str.split("==")`: split on the two-character separator, scanning left to
right without overlaps. -/
def splitEqEq : List Char → List (List Char)
  | [] => [[]]
  | '=' :: '=' :: rest => [] :: splitEqEq rest
  | c :: rest =>
    match splitEqEq rest with
    | [] => [[c]]
    | p :: ps => (c :: p) :: ps

/-- `TestPackage.lowered_packages`: splits each stored lower string on `==`
and indexes parts `[0]` and `[1]`; a string without `==` produces a
one-element split and the `[1]` access raises `IndexError`. -/
def TestPackage.lowered_packages (tp : TestPackage) :
    Except String (List PkgVer) :=
  match tp.lower with
  | none => .ok []
  | some l =>
    l.mapM fun s =>
      match splitEqEq s.data with
      | n :: v :: _ => .ok ⟨String.mk n, String.mk v⟩
      | _ => .error "IndexError: list index out of range"

/-! ## `gen_report` (edgetest/report.py) -/

def VALID_OUTPUTS : List String := ["rst", "github"]

/-- One row of the report table. -/
structure Row where
  envname : String
  setup_successful : Bool
  passing : Bool
  upgraded : String
  lowered : String
  version : String
  deriving DecidableEq, Repr

/-- `gen_report`, up to the final `tabulate` pretty-printing (exterior
formatting): produces the row matrix.  Each tester is paired with its
installed-package listing, the input `upgraded_packages` reads. -/
def gen_report (testers : List (TestPackage × List PkgVer))
    (output_type : String) : Except String (List Row) := do
  if output_type ∉ VALID_OUTPUTS then
    Except.error ("Invalid output_type provided: " ++ output_type)
  else
    let rowLists ← testers.mapM fun te => do
      let upgraded := te.1.upgraded_packages te.2
      let lowered ← te.1.lowered_packages
      Except.ok
        ((upgraded.map fun p =>
          Row.mk te.1.envname te.1.setup_status te.1.status p.name "" p.version)
        ++ (lowered.map fun p =>
          Row.mk te.1.envname te.1.setup_status te.1.status "" p.name p.version))
    Except.ok rowLists.flatten

/-! ## Supporting lemmas -/

theorem mapM_ok_of_forall {α β : Type} (f : α → Except String β) (g : α → β)
    (l : List α) (h : ∀ x ∈ l, f x = .ok (g x)) : l.mapM f = .ok (l.map g) := by
  induction l with
  | nil => rfl
  | cons a t ih =>
    rw [List.mapM_cons, h a (List.mem_cons_self a t),
      ih fun x hx => h x (List.mem_cons_of_mem a hx)]
    rfl

theorem mapM_error_of_exists {α β : Type} (f : α → Except String β)
    (l : List α) (e : String)
    (h : ∀ x ∈ l, (∃ y, f x = .ok y) ∨ f x = .error e)
    (hbad : ∃ x ∈ l, f x = .error e) : l.mapM f = .error e := by
  induction l with
  | nil => simp at hbad
  | cons a t ih =>
    rcases h a (List.mem_cons_self a t) with ⟨y, ha⟩ | ha
    · rcases hbad with ⟨x, hx, hfx⟩
      rcases List.mem_cons.mp hx with rfl | hx'
      · rw [ha] at hfx; exact absurd hfx (by simp)
      · have ht := ih (fun z hz => h z (List.mem_cons_of_mem a hz)) ⟨x, hx', hfx⟩
        rw [List.mapM_cons, ha, ht]
        rfl
    · rw [List.mapM_cons, ha]
      rfl

/-! ## Claims -/

/-- **C8.** Constructing a `TestPackage` succeeds exactly when exactly one of
`upgrade` and `lower` is supplied; supplying both, or neither, raises the
`ValueError` immediately in `__init__`. -/
theorem init_exactly_one_of_upgrade_lower (envname : String)
    (up low : Option (List String)) (pd : Option String) :
    ((∃ tp, TestPackage.init envname up low pd = .ok tp) ↔
      ((up = none ∧ low ≠ none) ∨ (up ≠ none ∧ low = none)))
    ∧ (((up = none ∧ low = none) ∨ (up ≠ none ∧ low ≠ none)) ↔
      TestPackage.init envname up low pd =
        .error "Exactly one of upgrade and lower must be provided.") := by
  unfold TestPackage.init
  constructor
  · split
    · next hc => simp only [reduceCtorEq, exists_const, false_iff]; tauto
    · next hc => simp only [Except.ok.injEq, exists_eq', true_iff]; tauto
  · split
    · next hc => simpa using hc
    · next hc => simp only [reduceCtorEq, iff_false]; exact hc

/-- **C3.** `run_tests` raises whenever `setup_status` is not success, and
otherwise returns the raw subprocess exit code, setting `status` to pass
exactly when that exit code is `0`. -/
theorem run_tests_contract (tp : TestPackage) (returncode : Int) :
    (tp.setup_status = false →
      tp.run_tests returncode = .error "Environment setup failed. Cannot run tests.")
    ∧ (tp.setup_status = true →
      ∃ tp', tp.run_tests returncode = .ok (tp', returncode)
        ∧ (tp'.status = true ↔ returncode = 0)
        ∧ (tp'.status = false ↔ returncode ≠ 0)) := by
  constructor
  · intro h; simp [TestPackage.run_tests, h]
  · intro h
    refine ⟨{ tp with status := decide (returncode = 0) }, ?_, ?_, ?_⟩
    · simp [TestPackage.run_tests, h]
    · simp
    · simp

/-- Witness for C3: a successful-setup package returns exit code `2` with a
failing status, and a not-set-up package raises. -/
theorem run_tests_contract_witness :
    (∃ tp', TestPackage.run_tests ⟨"env", some ["pkg"], none, ".", true, false⟩ 2
        = .ok (tp', 2) ∧ (tp'.status = true ↔ (2 : Int) = 0)
        ∧ (tp'.status = false ↔ (2 : Int) ≠ 0))
    ∧ TestPackage.run_tests ⟨"env", some ["pkg"], none, ".", false, false⟩ 0
        = .error "Environment setup failed. Cannot run tests." :=
  ⟨(run_tests_contract ⟨"env", some ["pkg"], none, ".", true, false⟩ 2).2 rfl,
   (run_tests_contract ⟨"env", some ["pkg"], none, ".", false, false⟩ 0).1 rfl⟩

/-- **C2.** Evaluating `upgrade_requirements` at the three specified inputs:
the `<=` and `<` rewrites behave as specified, but the `== V` branch
evaluates `Specifier(">=V") & Specifier("<=ceiling")`, and `packaging`
defines `__and__` only on `SpecifierSet` (rejecting `Specifier` operands), so
`pandas==1.2.0` raises `TypeError` instead of producing
`pandas>=1.2.0,<=1.5.0`. -/
theorem upgrade_requirements_eq_pin_raises :
    upgrade_requirements "pandas<=1.2.0" [("pandas", "1.5.0")] = .ok "pandas<=1.5.0"
    ∧ upgrade_requirements "pandas<2.0.0" [("pandas", "1.5.0")]
        = .ok "pandas!=2.0.0,<=1.5.0"
    ∧ upgrade_requirements "pandas==1.2.0" [("pandas", "1.5.0")]
        = .error "TypeError: unsupported operand type(s) for &: 'Specifier' and 'Specifier'" :=
  ⟨rfl, rfl, rfl⟩

/-- **C10.** `lowered_packages` is total only when every stored lower string
contains `==`: in that case it returns the `{name, version}` pairs in order;
a lower string whose `==`-split has a single piece makes the `[1]` index
raise `IndexError`; upgrade-mode runs (no `lower` list) return `[]`. -/
theorem lowered_packages_contract (tp : TestPackage) (l : List String) :
    (tp.lower = none → tp.lowered_packages = .ok [])
    ∧ (tp.lower = some l →
      (∀ s ∈ l, 2 ≤ (splitEqEq s.data).length) →
      tp.lowered_packages = .ok (l.map fun s =>
        ⟨String.mk (splitEqEq s.data).headI,
         String.mk ((splitEqEq s.data).tail).headI⟩))
    ∧ (tp.lower = some l →
      (∃ s ∈ l, (splitEqEq s.data).length < 2) →
      tp.lowered_packages = .error "IndexError: list index out of range") := by
  refine ⟨fun h => by simp [TestPackage.lowered_packages, h], fun h hall => ?_,
    fun h hbad => ?_⟩
  · unfold TestPackage.lowered_packages
    rw [h]
    refine mapM_ok_of_forall _ _ _ fun s hs => ?_
    have h2 := hall s hs
    rcases hsp : splitEqEq s.data with _ | ⟨n, _ | ⟨v, rest⟩⟩
    · rw [hsp] at h2; simp at h2
    · rw [hsp] at h2; simp at h2
    · simp [hsp]
  · unfold TestPackage.lowered_packages
    rw [h]
    refine mapM_error_of_exists _ _ _ (fun s _ => ?_) ?_
    · rcases hsp : splitEqEq s.data with _ | ⟨n, _ | ⟨v, rest⟩⟩
      · exact Or.inr (by simp [hsp])
      · exact Or.inr (by simp [hsp])
      · exact Or.inl ⟨⟨String.mk n, String.mk v⟩, by simp [hsp]⟩
    · rcases hbad with ⟨s, hs, hlen⟩
      refine ⟨s, hs, ?_⟩
      rcases hsp : splitEqEq s.data with _ | ⟨n, _ | ⟨v, rest⟩⟩
      · simp [hsp]
      · simp [hsp]
      · rw [hsp] at hlen; simp at hlen; omega

/-- **C1 counterexample.** `setup` can raise.  (a) A `TestPackage`
constructed with `upgrade=[]` (allowed by `__init__`, whose check tests only
for `None`) makes `setup` raise: `if self.upgrade:` is falsy for an empty
list, so the lower-bound branch runs and evaluates `", ".join(self.lower)`
with `self.lower = None`, a `TypeError` — even though every provisioning
step succeeded.  (b) A dependency string with an unclosed quote makes the
`shlex.split` list comprehension — which sits outside the `try` — raise
`ValueError` uncaught.  (c) A failing `os.chdir` in `pushd` propagates out
of `setup` uncaught. -/
theorem setup_uncaught_exceptions :
    TestPackage.init "myenv" (some []) none none
      = .ok ⟨"myenv", some [], none, ".", false, false⟩
    ∧ TestPackage.setup ⟨"myenv", some [], none, ".", false, false⟩
        ⟨true, true, true, true, true, true⟩ none false
      = .error "TypeError: can only join an iterable (got type NoneType)"
    ∧ TestPackage.setup ⟨"myenv", some ["pandas"], none, ".", false, false⟩
        ⟨true, true, true, true, true, true⟩ (some ["\""]) false
      = .error "ValueError: No closing quotation"
    ∧ TestPackage.setup ⟨"myenv", some ["pandas"], none, ".", false, false⟩
        ⟨true, false, true, true, true, true⟩ none false
      = .error "FileNotFoundError: [Errno 2] No such file or directory" := by
  refine ⟨by simp [TestPackage.init], rfl, rfl, rfl⟩

/-- **C1 (amended).** For every `TestPackage` built by `__init__` whose
upgrade list is not the empty list, provided the directory change into
`package_dir` succeeds and every additional dependency string is accepted by
`shlex.split`, `setup` never raises: it returns normally, executes the
planned steps in order stopping right after the first failing one (no later
step is executed), and ends with `setup_status` success exactly when every
planned step succeeded (or setup was skipped). -/
theorem setup_no_raise_halts_on_failure (envname : String)
    (up low : Option (List String)) (pd : Option String) (tp : TestPackage)
    (h : Hook) (deps : Option (List String)) (skipFlag : Bool) :
    TestPackage.init envname up low pd = .ok tp →
    up ≠ some [] →
    h.chdir_ok = true →
    firstShlexErr (deps.getD []) = none →
    tp.setup h deps skipFlag =
      .ok ({ tp with setup_status :=
               skipFlag || (plannedSteps tp deps).all (stepOk h) },
           if skipFlag then [] else runSteps h (plannedSteps tp deps)) := by
  intro hinit hup hch hsh
  unfold TestPackage.init at hinit
  split at hinit
  · exact absurd hinit (by simp)
  · next hcond =>
    have htp : tp.upgrade = up ∧ tp.lower = low := by
      cases hinit; exact ⟨rfl, rfl⟩
    obtain ⟨hu, hl⟩ := htp
    cases skipFlag
    · rcases up with _ | ul
      · rcases low with _ | ll
        · exact absurd (Or.inl ⟨rfl, rfl⟩) hcond
        · have hun : truthyOpt (none : Option (List String)) = false := rfl
          cases hc : h.create_ok <;> cases hd : truthyOpt deps <;>
            cases hdi : h.install_deps_ok <;> cases hil : h.install_local_ok <;>
            cases hlo : h.run_install_lower_ok <;>
            simp [TestPackage.setup, plannedSteps, runSteps, stepOk,
              hc, hd, hdi, hil, hlo, hun, hu, hl, hch, hsh]
      · rcases low with _ | ll
        · have hune : ul ≠ [] := fun hnil => hup (by rw [hnil])
          rcases ul with _ | ⟨x, xs⟩
          · exact absurd rfl hune
          · have hus : truthyOpt (some (x :: xs) : Option (List String)) = true := rfl
            cases hc : h.create_ok <;> cases hd : truthyOpt deps <;>
              cases hdi : h.install_deps_ok <;> cases hil : h.install_local_ok <;>
              cases hru : h.run_update_ok <;>
              simp [TestPackage.setup, plannedSteps, runSteps, stepOk,
                hc, hd, hdi, hil, hru, hus, hu, hl, hch, hsh]
        · exact absurd (Or.inr ⟨by simp, by simp⟩) hcond
    · simp [TestPackage.setup]

/-- Witness for C1 (amended): a concrete upgrade-mode package whose
environment-creation step fails; the directory change succeeds and there are
no additional dependencies, so the theorem applies and `setup` returns
normally having attempted only that first step. -/
theorem setup_no_raise_halts_on_failure_witness :
    TestPackage.init "myenv" (some ["pandas"]) none none
      = .ok ⟨"myenv", some ["pandas"], none, ".", false, false⟩
    ∧ (some ["pandas"] : Option (List String)) ≠ some []
    ∧ Hook.chdir_ok ⟨false, true, true, true, true, true⟩ = true
    ∧ firstShlexErr ((none : Option (List String)).getD []) = none
    ∧ TestPackage.setup ⟨"myenv", some ["pandas"], none, ".", false, false⟩
        ⟨false, true, true, true, true, true⟩ none false
      = .ok (⟨"myenv", some ["pandas"], none, ".", false, false⟩, [.createEnv]) := by
  refine ⟨by simp [TestPackage.init], by simp, rfl, rfl, ?_⟩
  have := setup_no_raise_halts_on_failure "myenv" (some ["pandas"]) none none
    ⟨"myenv", some ["pandas"], none, ".", false, false⟩
    ⟨false, true, true, true, true, true⟩ none false (by simp [TestPackage.init])
    (by simp) rfl rfl
  simpa [plannedSteps, runSteps, stepOk, truthyOpt] using this

/-- **C6 counterexample.** An upgrade-mode environment whose setup failed and
whose resolved-package collections are empty contributes no rows at all:
it does not appear in the report (the spec claims it still appears with
empty package columns). -/
theorem gen_report_failed_env_absent :
    gen_report [(⟨"failenv", some ["pandas"], none, ".", false, false⟩, [])] "rst"
      = .ok [] := by
  rfl

/-- **C6 (amended).** For a valid output type, and testers whose
lower strings all split on `==` (so `lowered_packages` succeeds), the
aggregator returns normally regardless of any tester's setup status — empty
package collections are a normal case producing zero rows — with one row per
(environment, resolved package) pair, the upgraded and lowered columns
mutually exclusive per row; an environment with empty collections
contributes no rows. -/
theorem gen_report_rows (testers : List (TestPackage × List PkgVer))
    (t : String) :
    t ∈ VALID_OUTPUTS →
    (∀ te ∈ testers, ∃ lp, te.1.lowered_packages = .ok lp) →
    ∃ rows, gen_report testers t = .ok rows
      ∧ (∀ row ∈ rows, row.upgraded = "" ∨ row.lowered = "")
      ∧ rows.length = (testers.map fun te =>
          (te.1.upgraded_packages te.2).length
          + ((te.1.lowered_packages).toOption.getD []).length).sum := by
  intro ht hlow
  refine ⟨(testers.map fun te =>
      ((te.1.upgraded_packages te.2).map fun p =>
        Row.mk te.1.envname te.1.setup_status te.1.status p.name "" p.version)
      ++ (((te.1.lowered_packages).toOption.getD []).map fun p =>
        Row.mk te.1.envname te.1.setup_status te.1.status "" p.name p.version)).flatten,
    ?_, ?_, ?_⟩
  · unfold gen_report
    rw [if_neg (by simp [ht])]
    rw [mapM_ok_of_forall _ _ _ fun te hte => ?_]
    · rfl
    · obtain ⟨lp, hlp⟩ := hlow te hte
      rw [show te.1.lowered_packages.toOption.getD [] = lp by
        simp [hlp, Except.toOption]]
      simp only [bind, Except.bind, hlp]
  · intro row hrow
    rw [List.mem_flatten] at hrow
    obtain ⟨rs, hrs, hrowrs⟩ := hrow
    rw [List.mem_map] at hrs
    obtain ⟨te, _, rfl⟩ := hrs
    rcases List.mem_append.mp hrowrs with hm | hm <;>
      obtain ⟨p, _, rfl⟩ := List.mem_map.mp hm
    · exact Or.inr rfl
    · exact Or.inl rfl
  · rw [List.length_flatten, List.map_map]
    refine congrArg List.sum (List.map_congr_left fun te _ => ?_)
    simp [Function.comp]

/-- Witness for C10: a well-formed lower list resolves in order, a string
without `==` raises, and an upgrade-mode package returns `[]`. -/
theorem lowered_packages_contract_witness :
    TestPackage.lowered_packages
        ⟨"e", none, some ["pandas==1.5.2", "numpy==1.22.1"], ".", true, false⟩
      = .ok [⟨"pandas", "1.5.2"⟩, ⟨"numpy", "1.22.1"⟩]
    ∧ TestPackage.lowered_packages ⟨"e", none, some ["pandas"], ".", true, false⟩
      = .error "IndexError: list index out of range"
    ∧ TestPackage.lowered_packages ⟨"e", some ["pandas"], none, ".", true, false⟩
      = .ok [] :=
  ⟨((lowered_packages_contract _ ["pandas==1.5.2", "numpy==1.22.1"]).2.1 rfl
      (by decide)).trans (by rfl),
   (lowered_packages_contract _ ["pandas"]).2.2 rfl ⟨"pandas", by decide⟩,
   (lowered_packages_contract ⟨"e", some ["pandas"], none, ".", true, false⟩ []).1 rfl⟩

/-- Witness for C6 (amended): a single lower-mode tester with a failed setup
still yields a report, row count included. -/
theorem gen_report_rows_witness :
    ∃ rows, gen_report
        [((⟨"env", none, some ["pandas==1.5.2"], ".", false, false⟩ : TestPackage),
          ([] : List PkgVer))] "rst" = .ok rows
      ∧ (∀ row ∈ rows, row.upgraded = "" ∨ row.lowered = "")
      ∧ rows.length =
        ([((⟨"env", none, some ["pandas==1.5.2"], ".", false, false⟩ : TestPackage),
           ([] : List PkgVer))].map fun te =>
          (te.1.upgraded_packages te.2).length
          + ((te.1.lowered_packages).toOption.getD []).length).sum :=
  gen_report_rows _ "rst" (by simp [VALID_OUTPUTS])
    (by
      intro te hte
      rw [List.mem_singleton] at hte
      subst hte
      exact ⟨[⟨"pandas", "1.5.2"⟩], rfl⟩)

theorem char_toNat_ofNat_valid (n : Nat) (h1 : n < 0xd800) :
    (Char.ofNat n).toNat = n := by
  unfold Char.ofNat
  split
  · rfl
  · next hv => exact absurd (Or.inl h1) hv

/-- Mapping underscores to dashes commutes with ASCII lowering: lowering
never produces or consumes an underscore. -/
theorem toLower_replUnderscore (c : Char) :
    Char.toLower (replUnderscore c) = replUnderscore (Char.toLower c) := by
  by_cases hc : c = '_'
  · subst hc; decide
  · rw [replUnderscore, if_neg hc, replUnderscore, if_neg ?_]
    intro h
    rw [Char.toLower] at h
    split at h
    · next hrange =>
      have h2 : (Char.ofNat (c.toNat + 32)).toNat = c.toNat + 32 :=
        char_toNat_ofNat_valid _ (by omega)
      rw [h] at h2
      have h3 : ('_' : Char).toNat = 95 := rfl
      omega
    · exact hc h

/-- The normalisation in the spec's wording: lowercase the string, then map
underscores to dashes. -/
def specNormName (s : String) : String :=
  String.mk ((s.data.map Char.toLower).map replUnderscore)

theorem dashLower_eq_norm (l : List Char) :
    dashLower l = (l.map Char.toLower).map replUnderscore := by
  unfold dashLower
  rw [List.map_map, List.map_map]
  exact List.map_congr_left fun c _ => toLower_replUnderscore c

/-- **C7.** Package-name matching is case-insensitive and
dash/underscore-insensitive: `a` matches an element of `vals` exactly when
the two are equal after lowercasing and mapping underscores to dashes; the
`python-dateutil` spellings all match each other while `Python_Dateut1l`
matches none, and an extras-selector suffix on an upgrade entry is ignored
when filtering installed packages. -/
theorem name_matching_insensitive :
    (∀ (a : String) (vals : List String),
      isin_case_dashhyphen_ins a vals = true ↔
        ∃ b ∈ vals, specNormName a = specNormName b)
    ∧ isin_case_dashhyphen_ins "Python_Dateutil" ["pandas", "python-dateutil"] = true
    ∧ isin_case_dashhyphen_ins "PYTHON-DATEUTIL" ["pandas", "python-dateutil"] = true
    ∧ isin_case_dashhyphen_ins "python-dateutil" ["Python_Dateutil"] = true
    ∧ isin_case_dashhyphen_ins "PYTHON-DATEUTIL" ["Python_Dateutil"] = true
    ∧ isin_case_dashhyphen_ins "Python_Dateut1l"
        ["python-dateutil", "Python_Dateutil", "PYTHON-DATEUTIL"] = false
    ∧ TestPackage.upgraded_packages
        ⟨"e", some ["pkg[extra]"], none, ".", true, false⟩ [⟨"pkg", "1.0"⟩]
      = [⟨"pkg", "1.0"⟩] := by
  refine ⟨?_, by decide, by decide, by decide, by decide, by decide, by rfl⟩
  intro a vals
  unfold isin_case_dashhyphen_ins isinCaseDashhyphenInsChars
  rw [List.any_eq_true]
  constructor
  · rintro ⟨bd, hbd, heq⟩
    rw [List.mem_map] at hbd
    obtain ⟨b, hb, rfl⟩ := hbd
    refine ⟨b, hb, ?_⟩
    have heq' := of_decide_eq_true heq
    unfold specNormName
    rw [← dashLower_eq_norm, ← dashLower_eq_norm, heq']
  · rintro ⟨b, hb, heq⟩
    refine ⟨b.data, List.mem_map_of_mem _ hb, decide_eq_true ?_⟩
    have h1 : (String.mk (dashLower a.data)) = (String.mk (dashLower b.data)) := by
      rw [dashLower_eq_norm, dashLower_eq_norm]
      exact heq
    exact congrArg String.data h1

/-! ### Single-line behaviour of the rewriter -/

theorem splitChar_not_mem (sep : Char) (l : List Char) (h : sep ∉ l) :
    splitChar sep l = [l] := by
  induction l with
  | nil => rfl
  | cons c rest ih =>
    unfold splitChar
    rw [if_neg (fun hc : c = sep => h (hc ▸ List.mem_cons_self c rest))]
    rw [ih fun hm => h (List.mem_cons_of_mem c hm)]

theorem takeWhile_ne_nil_head {p : Char → Bool} {l : List Char}
    (h : l.takeWhile p ≠ []) :
    ∃ c t, l = c :: t ∧ p c = true := by
  cases l with
  | nil => simp at h
  | cons c t =>
    by_cases hp : p c = true
    · exact ⟨c, t, rfl, hp⟩
    · rw [List.takeWhile_cons, if_neg hp] at h
      exact absurd rfl h

/-- A line that parses as a requirement survives the comprehension filter:
its stripped text starts with a name character, which is not `#`. -/
theorem keepLine_of_parse (l : List Char) (r : Req)
    (h : parseReqChars l = some r) : keepLine l = true := by
  unfold parseReqChars at h
  split at h
  · exact absurd h (by simp)
  · next hname =>
    obtain ⟨c, t, hshape, hpc⟩ := takeWhile_ne_nil_head hname
    unfold keepLine
    rw [hshape]
    have hc : c ≠ '#' := by
      intro hcc
      rw [hcc] at hpc
      exact absurd hpc (by decide)
    simp [hc]

theorem lookupLast_eq_none (key : List Char)
    (ups : List (List Char × List Char)) (h : ∀ p ∈ ups, p.1 ≠ key) :
    lookupLast key ups = none := by
  induction ups with
  | nil => rfl
  | cons a t ih =>
    unfold lookupLast
    rw [ih fun p hp => h p (List.mem_cons_of_mem a hp)]
    exact if_neg (h a (List.mem_cons_self a t) ·)

/-- **C9.** The manifest rewrite decides whether a line is rewritten by exact
string equality between the parsed requirement name and the upgraded-package
names — not the case/dash-underscore-insensitive comparison used for
installed-package filtering: any single-line requirement whose name differs
from every reported name is re-serialised untouched, even when the
insensitive comparison would have matched. -/
theorem rewrite_uses_exact_name_equality :
    (∀ (line : List Char) (r : Req) (ups : List (List Char × List Char)),
      '\n' ∉ line →
      parseReqChars line = some r →
      (∀ p ∈ ups, p.1 ≠ r.name) →
      upgradeRequirementsChars line ups = .ok (printReqChars r))
    ∧ upgrade_requirements "Foo_Bar<=1.0.0" [("foo-bar", "2.0.0")]
        = .ok "Foo_Bar<=1.0.0"
    ∧ isin_case_dashhyphen_ins "Foo_Bar" ["foo-bar"] = true
    ∧ upgrade_requirements "foo-bar<=1.0.0" [("foo-bar", "2.0.0")]
        = .ok "foo-bar<=2.0.0" := by
  refine ⟨?_, rfl, by decide, rfl⟩
  intro line r ups hnl hparse hups
  unfold upgradeRequirementsChars
  rw [splitChar_not_mem '\n' line hnl]
  rw [show List.filter keepLine [line] = [line] by
    simp [List.filter, keepLine_of_parse line r hparse]]
  have h1 : List.mapM parseReqOrError [line] = .ok [r] :=
    mapM_ok_of_forall _ (fun _ => r) _ fun x hx => by
      rw [List.mem_singleton] at hx
      subst hx
      simp [parseReqOrError, hparse]
  have h2 : List.mapM (rewritePkg ups) [r] = .ok [r] :=
    mapM_ok_of_forall _ id _ fun x hx => by
      rw [List.mem_singleton] at hx
      subst hx
      simp [rewritePkg, lookupLast_eq_none _ ups hups]
  simp only [h1, h2]
  simp [List.intercalate]

/-- Witness for C9: the general no-rewrite conjunct applied to the line
`Foo_Bar<=1.0.0` against reported name `foo-bar`. -/
theorem rewrite_uses_exact_name_equality_witness :
    upgradeRequirementsChars "Foo_Bar<=1.0.0".data [("foo-bar".data, "2.0.0".data)]
      = .ok (printReqChars ⟨"Foo_Bar".data, [], [⟨.le, "1.0.0".data⟩]⟩) :=
  rewrite_uses_exact_name_equality.1 "Foo_Bar<=1.0.0".data
    ⟨"Foo_Bar".data, [], [⟨.le, "1.0.0".data⟩]⟩
    [("foo-bar".data, "2.0.0".data)] (by decide) (by rfl)
    (by intro p hp; rw [List.mem_singleton] at hp; subst hp; decide)

/-! ### Well-formedness invariants produced by the parser -/

/-- A specifier arising from parsing: stripped, non-empty, version-class
characters only, not starting with an operator character. -/
def WfSpec (sp : Spec) : Prop :=
  versionOk sp.version = true

/-- A requirement arising from parsing. -/
def WfReq (r : Req) : Prop :=
  r.name ≠ [] ∧ r.name.all isNameChar = true
    ∧ (∀ e ∈ r.extras, e ≠ [] ∧ e.all isNameChar = true)
    ∧ (∀ sp ∈ r.specs, WfSpec sp)

theorem name_char_not_ws {c : Char} (h : isNameChar c = true) :
    isWs c = false := by
  cases hw : isWs c
  · rfl
  · exfalso
    simp only [isWs, Bool.or_eq_true, decide_eq_true_eq] at hw
    rcases hw with ((rfl | rfl) | rfl) | rfl <;> exact absurd h (by decide)

theorem version_char_not_ws {c : Char} (h : isVersionChar c = true) :
    isWs c = false := by
  cases hw : isWs c
  · rfl
  · exfalso
    simp only [isWs, Bool.or_eq_true, decide_eq_true_eq] at hw
    rcases hw with ((rfl | rfl) | rfl) | rfl <;> exact absurd h (by decide)

theorem name_char_not_nl {c : Char} (h : isNameChar c = true) : c ≠ '\n' :=
  fun hc => by rw [hc] at h; exact absurd h (by decide)

theorem version_char_not_comma {c : Char} (h : isVersionChar c = true) :
    c ≠ ',' :=
  fun hc => by rw [hc] at h; exact absurd h (by decide)

theorem versionOk_shape {v : List Char} (h : versionOk v = true) :
    ∃ c t, v = c :: t ∧ isOpStart c = false
      ∧ (∀ x ∈ v, isVersionChar x = true) := by
  cases v with
  | nil => exact absurd h (by simp [versionOk])
  | cons c t =>
    unfold versionOk at h
    rw [Bool.and_eq_true] at h
    exact ⟨c, t, rfl, by simpa using h.2, by
      intro x hx
      exact List.all_eq_true.mp h.1 x hx⟩

theorem dropWhile_eq_self_of_forall {p : Char → Bool} {l : List Char}
    (h : ∀ c ∈ l, p c = false) : l.dropWhile p = l := by
  cases l with
  | nil => rfl
  | cons c t =>
    rw [List.dropWhile_cons, h c (List.mem_cons_self c t)]
    simp

theorem pyTrim_eq_self {l : List Char} (h : ∀ c ∈ l, isWs c = false) :
    pyTrim l = l := by
  unfold pyTrim
  rw [dropWhile_eq_self_of_forall h,
    dropWhile_eq_self_of_forall fun c hc => h c (List.mem_reverse.mp hc),
    List.reverse_reverse]

theorem mem_intercalate {sep : Char} {pieces : List (List Char)} {c : Char}
    (h : c ∈ List.intercalate [sep] pieces) :
    c = sep ∨ ∃ p ∈ pieces, c ∈ p := by
  induction pieces with
  | nil => simp [List.intercalate, List.intersperse] at h
  | cons a t ih =>
    cases t with
    | nil =>
      simp only [List.intercalate, List.intersperse, List.flatten] at h
      rw [List.append_nil] at h
      exact Or.inr ⟨a, List.mem_cons_self a [], h⟩
    | cons b t2 =>
      rw [show List.intercalate [sep] (a :: b :: t2)
          = a ++ [sep] ++ List.intercalate [sep] (b :: t2) by
        simp [List.intercalate, List.intersperse]] at h
      rcases List.mem_append.mp h with h1 | h2
      · rcases List.mem_append.mp h1 with ha | hs
        · exact Or.inr ⟨a, List.mem_cons_self a _, ha⟩
        · exact Or.inl (List.mem_singleton.mp hs)
      · rcases ih h2 with hc | ⟨p, hp, hcp⟩
        · exact Or.inl hc
        · exact Or.inr ⟨p, List.mem_cons_of_mem a hp, hcp⟩

theorem splitChar_cons_ne (sep c : Char) (t : List Char) (hc : c ≠ sep) :
    splitChar sep (c :: t) =
      match splitChar sep t with
      | [] => [[c]]
      | p :: ps => (c :: p) :: ps := by
  conv_lhs => unfold splitChar
  rw [if_neg hc]

theorem splitChar_append_sep (sep : Char) (p rest : List Char) (hp : sep ∉ p) :
    splitChar sep (p ++ sep :: rest) = p :: splitChar sep rest := by
  induction p with
  | nil => simp [splitChar]
  | cons c t ih =>
    have hc : c ≠ sep := fun hcc => hp (hcc ▸ List.mem_cons_self c t)
    rw [List.cons_append,
      splitChar_cons_ne sep c (t ++ sep :: rest) hc,
      ih fun hm => hp (List.mem_cons_of_mem c hm)]

theorem splitChar_ne_nil (sep : Char) (l : List Char) :
    splitChar sep l ≠ [] := by
  cases l with
  | nil => simp [splitChar]
  | cons c t =>
    by_cases hc : c = sep
    · subst hc
      unfold splitChar
      simp
    · rw [splitChar_cons_ne sep c t hc]
      rcases splitChar sep t with _ | ⟨p, ps⟩ <;> simp

theorem splitChar_intercalate (sep : Char) (pieces : List (List Char))
    (hne : pieces ≠ []) (h : ∀ p ∈ pieces, sep ∉ p) :
    splitChar sep (List.intercalate [sep] pieces) = pieces := by
  induction pieces with
  | nil => exact absurd rfl hne
  | cons a t ih =>
    cases t with
    | nil =>
      rw [show List.intercalate [sep] [a] = a by
        simp [List.intercalate, List.intersperse]]
      exact splitChar_not_mem sep a (h a (List.mem_cons_self a []))
    | cons b t2 =>
      rw [show List.intercalate [sep] (a :: b :: t2)
          = a ++ sep :: List.intercalate [sep] (b :: t2) by
        simp [List.intercalate, List.intersperse]]
      rw [splitChar_append_sep sep a _ (h a (List.mem_cons_self a _))]
      rw [ih (by simp) fun p hp => h p (List.mem_cons_of_mem a hp)]

/-! ### The sorted-set serialisation -/

theorem char_toNat_inj {a b : Char} (h : a.toNat = b.toNat) : a = b := by
  rw [← Char.ofNat_toNat a, ← Char.ofNat_toNat b, h]

theorem ltB_ne {a b : List Char} (h : ltB a b = true) : a ≠ b := by
  induction a generalizing b with
  | nil =>
    cases b with
    | nil => exact absurd h (by simp [ltB])
    | cons y ys => simp
  | cons x xs ih =>
    cases b with
    | nil => exact absurd h (by simp [ltB])
    | cons y ys =>
      unfold ltB at h
      split at h
      · next hlt =>
        intro he
        rw [List.cons.injEq] at he
        rw [he.1] at hlt
        omega
      · split at h
        · exact absurd h (by simp)
        · intro he
          rw [List.cons.injEq] at he
          exact ih h he.2

theorem ltB_total {a b : List Char} (h1 : ltB a b = false) (h2 : a ≠ b) :
    ltB b a = true := by
  induction a generalizing b with
  | nil =>
    cases b with
    | nil => exact absurd rfl h2
    | cons y ys => exact absurd h1 (by simp [ltB])
  | cons x xs ih =>
    cases b with
    | nil => simp [ltB]
    | cons y ys =>
      unfold ltB at h1 ⊢
      split at h1
      · exact absurd h1 (by simp)
      · next hxy =>
        split at h1
        · next hyx =>
          rw [if_pos hyx]
        · next hyx =>
          have hxyn : x = y := char_toNat_inj (by omega)
          rw [if_neg (by omega), if_neg (by omega)]
          refine ih h1 fun he => h2 ?_
          rw [hxyn, he]

theorem mem_insUK {α : Type} (k : α → List Char) (a : α) (l : List α) (x : α)
    (h : x ∈ insUK k a l) : x = a ∨ x ∈ l := by
  induction l with
  | nil => simpa [insUK] using h
  | cons y ys ih =>
    by_cases h1 : k a = k y
    · rw [insUK, if_pos h1] at h
      exact Or.inr h
    · by_cases h2 : ltB (k a) (k y) = true
      · rw [insUK, if_neg h1, if_pos h2] at h
        rcases List.mem_cons.mp h with rfl | hm
        · exact Or.inl rfl
        · exact Or.inr hm
      · rw [insUK, if_neg h1, if_neg h2] at h
        rcases List.mem_cons.mp h with rfl | hm
        · exact Or.inr (List.mem_cons_self _ _)
        · rcases ih hm with hx | hx
          · exact Or.inl hx
          · exact Or.inr (List.mem_cons_of_mem _ hx)

theorem mem_sortUK {α : Type} (k : α → List Char) (l : List α) (x : α)
    (h : x ∈ sortUK k l) : x ∈ l := by
  induction l with
  | nil => simp [sortUK] at h
  | cons y ys ih =>
    unfold sortUK at h
    rw [List.foldr_cons] at h
    rcases mem_insUK k y _ x h with rfl | hm
    · exact List.mem_cons_self x ys
    · exact List.mem_cons_of_mem y (ih hm)

theorem chain_insUK {α : Type} (k : α → List Char) (x : α) (l : List α)
    (h : List.Chain' (fun p q => ltB (k p) (k q) = true) l) :
    List.Chain' (fun p q => ltB (k p) (k q) = true) (insUK k x l)
    ∧ (∀ z, (insUK k x l).head? = some z → z = x ∨ l.head? = some z) := by
  induction l with
  | nil =>
    refine ⟨by simp [insUK], ?_⟩
    intro z hz
    simp only [insUK] at hz
    cases hz
    exact Or.inl rfl
  | cons y ys ih =>
    by_cases h1 : k x = k y
    · rw [insUK, if_pos h1]
      exact ⟨h, fun z hz => Or.inr hz⟩
    · by_cases h2 : ltB (k x) (k y) = true
      · rw [insUK, if_neg h1, if_pos h2]
        refine ⟨List.Chain'.cons h2 h, fun z hz => ?_⟩
        cases hz
        exact Or.inl rfl
      · rw [insUK, if_neg h1, if_neg h2]
        have hyx : ltB (k y) (k x) = true :=
          ltB_total (by simpa using h2) fun he => h1 he
        obtain ⟨hchain, hhead⟩ := ih (List.Chain'.tail h)
        constructor
        · cases hins : insUK k x ys with
          | nil => simp
          | cons z zs =>
            rw [hins] at hchain
            refine List.Chain'.cons ?_ hchain
            rcases hhead z (by rw [hins]; rfl) with rfl | hz
            · exact hyx
            · cases ys with
              | nil => simp at hz
              | cons b bs =>
                cases hz
                exact (List.chain'_cons.mp h).1
        · intro z hz
          cases hz
          exact Or.inr rfl

theorem chain_sortUK {α : Type} (k : α → List Char) (l : List α) :
    List.Chain' (fun p q => ltB (k p) (k q) = true) (sortUK k l) := by
  induction l with
  | nil => simp [sortUK]
  | cons y ys ih =>
    unfold sortUK
    rw [List.foldr_cons]
    exact (chain_insUK k y _ ih).1

theorem sortUK_of_chain {α : Type} (k : α → List Char) (l : List α)
    (h : List.Chain' (fun p q => ltB (k p) (k q) = true) l) :
    sortUK k l = l := by
  induction l with
  | nil => rfl
  | cons a t ih =>
    unfold sortUK
    rw [List.foldr_cons]
    rw [show List.foldr (insUK k) [] t = sortUK k t from rfl,
      ih (List.Chain'.tail h)]
    cases t with
    | nil => rfl
    | cons b bs =>
      have hab : ltB (k a) (k b) = true := (List.chain'_cons.mp h).1
      rw [insUK, if_neg (ltB_ne hab), if_pos hab]

theorem insUK_ne_nil {α : Type} (k : α → List Char) (x : α) (l : List α) :
    insUK k x l ≠ [] := by
  cases l with
  | nil => simp [insUK]
  | cons y ys =>
    unfold insUK
    split
    · simp
    · split <;> simp

theorem sortUK_ne_nil {α : Type} (k : α → List Char) (a : α) (l : List α) :
    sortUK k (a :: l) ≠ [] := by
  unfold sortUK
  rw [List.foldr_cons]
  exact insUK_ne_nil k a _

theorem parseSpec_specStr (op : Op) (v : List Char) (h : versionOk v = true) :
    parseSpecChars (specStr ⟨op, v⟩) = some ⟨op, v⟩ := by
  obtain ⟨c, t, hv, hc, hall⟩ := versionOk_shape h
  have hnws : ∀ x ∈ specStr ⟨op, v⟩, isWs x = false := by
    intro x hx
    rcases List.mem_append.mp hx with hop | hver
    · cases op <;> simp [opChars] at hop <;>
        first
        | (subst hop; decide)
        | (rcases hop with rfl | rfl <;> decide)
    · exact version_char_not_ws (hall x hver)
  have hvtrim : pyTrim v = v :=
    pyTrim_eq_self fun x hx => version_char_not_ws (hall x hx)
  have hcne : c ≠ '=' := fun he => by rw [he] at hc; exact absurd hc (by decide)
  unfold parseSpecChars
  rw [pyTrim_eq_self hnws]
  cases op
  case le =>
    subst hv
    split
    case h_8 h1 h2 h3 h4 h5 h6 h7 =>
      exact (h1 (c :: t) (by simp [specStr, opChars])).elim
    all_goals
      first
      | (simp_all [mkSpec, specStr, opChars]; done)
      | (rename_i hne heq
         simp only [specStr, opChars, List.cons_append, List.nil_append,
           List.cons.injEq, true_and] at heq
         exact (hne _ heq.symm).elim)
  case ge =>
    subst hv
    split
    case h_8 h1 h2 h3 h4 h5 h6 h7 =>
      exact (h2 (c :: t) (by simp [specStr, opChars])).elim
    all_goals
      first
      | (simp_all [mkSpec, specStr, opChars]; done)
      | (rename_i hne heq
         simp only [specStr, opChars, List.cons_append, List.nil_append,
           List.cons.injEq, true_and] at heq
         exact (hne _ heq.symm).elim)
  case eq =>
    subst hv
    split
    case h_8 h1 h2 h3 h4 h5 h6 h7 =>
      exact (h3 (c :: t) (by simp [specStr, opChars])).elim
    all_goals
      first
      | (simp_all [mkSpec, specStr, opChars]; done)
      | (rename_i hne heq
         simp only [specStr, opChars, List.cons_append, List.nil_append,
           List.cons.injEq, true_and] at heq
         exact (hne _ heq.symm).elim)
  case ne =>
    subst hv
    split
    case h_8 h1 h2 h3 h4 h5 h6 h7 =>
      exact (h4 (c :: t) (by simp [specStr, opChars])).elim
    all_goals
      first
      | (simp_all [mkSpec, specStr, opChars]; done)
      | (rename_i hne heq
         simp only [specStr, opChars, List.cons_append, List.nil_append,
           List.cons.injEq, true_and] at heq
         exact (hne _ heq.symm).elim)
  case compat =>
    subst hv
    split
    case h_8 h1 h2 h3 h4 h5 h6 h7 =>
      exact (h5 (c :: t) (by simp [specStr, opChars])).elim
    all_goals
      first
      | (simp_all [mkSpec, specStr, opChars]; done)
      | (rename_i hne heq
         simp only [specStr, opChars, List.cons_append, List.nil_append,
           List.cons.injEq, true_and] at heq
         exact (hne _ heq.symm).elim)
  case lt =>
    subst hv
    split
    case h_8 h1 h2 h3 h4 h5 h6 h7 =>
      exact (h6 (c :: t) (by simp [specStr, opChars])).elim
    all_goals
      first
      | (simp_all [mkSpec, specStr, opChars]; done)
      | (rename_i hne heq
         simp only [specStr, opChars, List.cons_append, List.nil_append,
           List.cons.injEq, true_and] at heq
         exact (hne _ heq.symm).elim)
  case gt =>
    subst hv
    split
    case h_8 h1 h2 h3 h4 h5 h6 h7 =>
      exact (h7 (c :: t) (by simp [specStr, opChars])).elim
    all_goals
      first
      | (simp_all [mkSpec, specStr, opChars]; done)
      | (rename_i hne heq
         simp only [specStr, opChars, List.cons_append, List.nil_append,
           List.cons.injEq, true_and] at heq
         exact (hne _ heq.symm).elim)

theorem mapM_parseSpec_specStr (specs : List Spec)
    (h : ∀ sp ∈ specs, versionOk sp.version = true) :
    (specs.map specStr).mapM parseSpecChars = some specs := by
  induction specs with
  | nil => rfl
  | cons sp t ih =>
    rw [List.map_cons, List.mapM_cons]
    rw [show parseSpecChars (specStr sp) = some sp from by
      have := parseSpec_specStr sp.op sp.version (h sp (List.mem_cons_self sp t))
      exact this]
    rw [ih fun x hx => h x (List.mem_cons_of_mem sp hx)]
    rfl

theorem mapM_parseExtra_id (exs : List (List Char))
    (h : ∀ e ∈ exs, e ≠ [] ∧ e.all isNameChar = true) :
    exs.mapM parseExtra = some exs := by
  induction exs with
  | nil => rfl
  | cons e t ih =>
    obtain ⟨hne, hall⟩ := h e (List.mem_cons_self e t)
    have htrim : pyTrim e = e :=
      pyTrim_eq_self fun c hc =>
        name_char_not_ws (List.all_eq_true.mp hall c hc)
    rw [List.mapM_cons]
    rw [show parseExtra e = some e from by
      unfold parseExtra
      rw [htrim]
      simp [hne, hall]]
    rw [ih fun x hx => h x (List.mem_cons_of_mem e hx)]
    rfl

theorem takeWhile_append_of_all {p : Char → Bool} {a b : List Char}
    (h : ∀ c ∈ a, p c = true) :
    (a ++ b).takeWhile p = a ++ b.takeWhile p := by
  induction a with
  | nil => rfl
  | cons c t ih =>
    rw [List.cons_append, List.takeWhile_cons]
    simp [h c (List.mem_cons_self c t),
      ih fun x hx => h x (List.mem_cons_of_mem c hx)]

theorem dropWhile_append_of_all {p : Char → Bool} {a b : List Char}
    (h : ∀ c ∈ a, p c = true) :
    (a ++ b).dropWhile p = b.dropWhile p := by
  induction a with
  | nil => rfl
  | cons c t ih =>
    rw [List.cons_append, List.dropWhile_cons]
    simp [h c (List.mem_cons_self c t),
      ih fun x hx => h x (List.mem_cons_of_mem c hx)]

theorem opChars_all_opStart (op : Op) : ∀ c ∈ opChars op, isOpStart c = true := by
  cases op <;> intro c hc <;> simp [opChars] at hc <;>
    first
    | (subst hc; decide)
    | (rcases hc with rfl | rfl <;> decide)

theorem opChars_shape (op : Op) :
    ∃ c0 r0, opChars op = c0 :: r0 ∧ isOpStart c0 = true := by
  cases op <;> exact ⟨_, _, rfl, by decide⟩

theorem opStart_props {c : Char} (h : isOpStart c = true) :
    isWs c = false ∧ isNameChar c = false ∧ c ≠ ',' ∧ c ≠ ']' ∧ c ≠ '[' := by
  simp only [isOpStart, Bool.or_eq_true, decide_eq_true_eq] at h
  rcases h with (((rfl | rfl) | rfl) | rfl) | rfl <;> refine ⟨?_, ?_, ?_, ?_, ?_⟩ <;> decide

theorem name_char_props {c : Char} (h : isNameChar c = true) :
    c ≠ ',' ∧ c ≠ ']' ∧ c ≠ '#' ∧ c ≠ '[' := by
  refine ⟨?_, ?_, ?_, ?_⟩ <;> intro hc <;> rw [hc] at h <;>
    exact absurd h (by decide)

theorem version_char_props {c : Char} (h : isVersionChar c = true) :
    c ≠ ',' := by
  intro hc
  rw [hc] at h
  exact absurd h (by decide)

theorem specStr_not_ws {sp : Spec} (h : versionOk sp.version = true) :
    ∀ c ∈ specStr sp, isWs c = false := by
  intro c hc
  rcases List.mem_append.mp hc with hop | hver
  · exact (opStart_props (opChars_all_opStart sp.op c hop)).1
  · obtain ⟨c0, t0, _, _, hall⟩ := versionOk_shape h
    exact version_char_not_ws (hall c hver)

theorem specStr_not_comma {sp : Spec} (h : versionOk sp.version = true) :
    ∀ c ∈ specStr sp, c ≠ ',' := by
  intro c hc
  rcases List.mem_append.mp hc with hop | hver
  · exact (opStart_props (opChars_all_opStart sp.op c hop)).2.2.1
  · obtain ⟨c0, t0, _, _, hall⟩ := versionOk_shape h
    exact version_char_props (hall c hver)

theorem intercalate_head_shape (sep : Char) (p : List Char)
    (ps : List (List Char)) :
    ∃ x, List.intercalate [sep] (p :: ps) = p ++ x := by
  cases ps with
  | nil => exact ⟨[], by simp [List.intercalate, List.intersperse]⟩
  | cons q qs =>
    exact ⟨[sep] ++ List.intercalate [sep] (q :: qs), by
      simp [List.intercalate, List.intersperse]⟩

/-- The serialised specifier-set part of a printed requirement: empty for no
specifiers, otherwise a list starting with an operator character. -/
theorem specsPart_shape (specs : List Spec)
    (h : ∀ sp ∈ specs, versionOk sp.version = true) :
    (specs = [] ∧
      List.intercalate [','] ((sortUK specStr specs).map specStr) = [])
    ∨ (∃ c0 srest,
      List.intercalate [','] ((sortUK specStr specs).map specStr) = c0 :: srest
      ∧ isOpStart c0 = true) := by
  cases hs : specs with
  | nil => exact Or.inl ⟨rfl, rfl⟩
  | cons a t =>
    refine Or.inr ?_
    rcases hsort : sortUK specStr (a :: t) with _ | ⟨z, zs⟩
    · exact absurd hsort (sortUK_ne_nil specStr a t)
    · rw [List.map_cons]
      obtain ⟨x, hx⟩ := intercalate_head_shape ',' (specStr z) (zs.map specStr)
      rw [hx]
      obtain ⟨c0, r0, hop, hstart⟩ := opChars_shape z.op
      refine ⟨c0, r0 ++ z.version ++ x, ?_, hstart⟩
      rw [specStr, hop]
      simp

theorem specsPart_not_ws (specs : List Spec)
    (h : ∀ sp ∈ specs, versionOk sp.version = true) :
    ∀ c ∈ List.intercalate [','] ((sortUK specStr specs).map specStr),
      isWs c = false := by
  intro c hc
  rcases mem_intercalate hc with rfl | ⟨p, hp, hcp⟩
  · decide
  · rw [List.mem_map] at hp
    obtain ⟨sp, hsp, rfl⟩ := hp
    exact specStr_not_ws (h sp (mem_sortUK specStr specs sp hsp)) c hcp


theorem parseExtras_intercalate (exs : List (List Char)) (hne : exs ≠ [])
    (hwf : ∀ e ∈ exs, e ≠ [] ∧ e.all isNameChar = true) :
    parseExtrasChars (List.intercalate [','] exs) = some exs := by
  have hws : ∀ c ∈ List.intercalate [','] exs, isWs c = false := by
    intro c hc
    rcases mem_intercalate hc with rfl | ⟨p, hp, hcp⟩
    · decide
    · exact name_char_not_ws (List.all_eq_true.mp (hwf p hp).2 c hcp)
  have htrim : pyTrim (List.intercalate [','] exs) = List.intercalate [','] exs :=
    pyTrim_eq_self hws
  have hinne : List.intercalate [','] exs ≠ [] := by
    rcases exs with _ | ⟨e0, es⟩
    · exact absurd rfl hne
    · obtain ⟨x, hx⟩ := intercalate_head_shape ',' e0 es
      rw [hx]
      have he0 := (hwf e0 (List.mem_cons_self e0 es)).1
      rcases e0 with _ | ⟨c, t⟩
      · exact absurd rfl he0
      · simp
  have hnoc : ∀ p ∈ exs, ',' ∉ p := by
    intro p hp hcm
    exact (name_char_props (List.all_eq_true.mp (hwf p hp).2 ',' hcm)).1 rfl
  unfold parseExtrasChars
  rw [htrim, if_neg hinne, splitChar_intercalate ',' exs hne hnoc,
    mapM_parseExtra_id exs hwf]

theorem parseAfterName_bracket (inner rest : List Char)
    (exs : List (List Char))
    (hnb : ∀ c ∈ inner, c ≠ ']')
    (hex2 : parseExtrasChars inner = some exs) :
    parseAfterName ('[' :: (inner ++ ']' :: rest)) = some (exs, rest) := by
  have htw : (inner ++ ']' :: rest).takeWhile (fun c => c ≠ ']') = inner := by
    rw [takeWhile_append_of_all (fun c hc => decide_eq_true (hnb c hc)),
      List.takeWhile_cons]
    simp
  have hdw : (inner ++ ']' :: rest).dropWhile (fun c => c ≠ ']') = ']' :: rest := by
    rw [dropWhile_append_of_all (fun c hc => decide_eq_true (hnb c hc)),
      List.dropWhile_cons]
    simp
  unfold parseAfterName
  split
  · next t heq =>
    injection heq with h1 h2
    subst h2
    rw [hdw, htw, hex2]
    rfl
  · next hfun =>
    exact (hfun _ rfl).elim

theorem parseAfterName_not_bracket (b : List Char)
    (hb : b = [] ∨ ∃ c t, b = c :: t ∧ c ≠ '[') :
    parseAfterName b = some ([], b) := by
  rcases hb with rfl | ⟨c, t, rfl, hc⟩
  · rfl
  · unfold parseAfterName
    split
    · next heq =>
      injection heq with h1 _
      exact absurd h1 hc
    · rfl

/-- The canonical re-parse of a printed requirement: extras and specifier
clauses in sorted-set order. -/
def canonReq (r : Req) : Req :=
  ⟨r.name, sortUK id r.extras, sortUK specStr r.specs⟩

theorem parse_printReq (r : Req) (h : WfReq r) :
    parseReqChars (printReqChars r) = some (canonReq r) := by
  obtain ⟨hnne, hnall, hex, hsp⟩ := h
  have hnallm : ∀ c ∈ r.name, isNameChar c = true :=
    fun c hc => List.all_eq_true.mp hnall c hc
  have hexs : ∀ e ∈ sortUK id r.extras, e ≠ [] ∧ e.all isNameChar = true :=
    fun e he => hex e (mem_sortUK id r.extras e he)
  have hsps : ∀ sp ∈ sortUK specStr r.specs, versionOk sp.version = true :=
    fun sp hs => hsp sp (mem_sortUK specStr r.specs sp hs)
  have hSws : ∀ c ∈ List.intercalate [','] ((sortUK specStr r.specs).map specStr),
      isWs c = false := specsPart_not_ws r.specs hsp
  have hSshape := specsPart_shape r.specs hsp
  have hStake : (List.intercalate [','] ((sortUK specStr r.specs).map specStr)).takeWhile
      isNameChar = [] := by
    rcases hSshape with ⟨_, hS0⟩ | ⟨c0, srest, hS0, hc0⟩
    · rw [hS0]; rfl
    · rw [hS0, List.takeWhile_cons, (opStart_props hc0).2.1]
      simp
  have hSsplit : (List.intercalate [','] ((sortUK specStr r.specs).map specStr)) ≠ []
      → splitChar ',' (List.intercalate [','] ((sortUK specStr r.specs).map specStr))
        = (sortUK specStr r.specs).map specStr := by
    intro hne
    refine splitChar_intercalate ',' _ ?_ ?_
    · intro hmapnil
      rw [hmapnil] at hne
      exact hne rfl
    · intro p hp
      rw [List.mem_map] at hp
      obtain ⟨sp, hspm, rfl⟩ := hp
      intro hcomma
      exact specStr_not_comma (hsps sp hspm) ',' hcomma rfl
  have hSparse : ((sortUK specStr r.specs).map specStr).mapM parseSpecChars
      = some (sortUK specStr r.specs) := mapM_parseSpec_specStr _ hsps
  by_cases hE : r.extras = []
  · -- no extras: printed text is the name followed by the specifier part
    have hprint : printReqChars r
        = r.name ++ List.intercalate [','] ((sortUK specStr r.specs).map specStr) := by
      rw [printReqChars, if_pos hE]
      simp
    have hpws : ∀ c ∈ printReqChars r, isWs c = false := by
      rw [hprint]
      intro c hc
      rcases List.mem_append.mp hc with hn | hs
      · exact name_char_not_ws (hnallm c hn)
      · exact hSws c hs
    have hpt : pyTrim (printReqChars r) = printReqChars r := pyTrim_eq_self hpws
    have htake : (printReqChars r).takeWhile isNameChar = r.name := by
      rw [hprint, takeWhile_append_of_all hnallm, hStake, List.append_nil]
    have hdrop : (printReqChars r).dropWhile isNameChar
        = List.intercalate [','] ((sortUK specStr r.specs).map specStr) := by
      rw [hprint, dropWhile_append_of_all hnallm]
      rcases hSshape with ⟨_, hS0⟩ | ⟨c0, srest, hS0, hc0⟩
      · rw [hS0]; rfl
      · rw [hS0, List.dropWhile_cons, (opStart_props hc0).2.1]
        simp
    have hAfter : parseAfterName
        (List.intercalate [','] ((sortUK specStr r.specs).map specStr))
        = some ([], List.intercalate [','] ((sortUK specStr r.specs).map specStr)) := by
      refine parseAfterName_not_bracket _ ?_
      rcases hSshape with ⟨_, hS0⟩ | ⟨c0, srest, hS0, hc0⟩
      · exact Or.inl hS0
      · exact Or.inr ⟨c0, srest, hS0, (opStart_props hc0).2.2.2.2⟩
    unfold parseReqChars
    rw [hpt, htake, hdrop, if_neg hnne, hAfter]
    dsimp only
    rcases hSshape with ⟨hspecs0, hS0⟩ | ⟨c0, srest, hS0, hc0⟩
    · rw [hS0]
      simp [canonReq, hE, hspecs0, pyTrim, sortUK]
    · have hSne : List.intercalate [','] ((sortUK specStr r.specs).map specStr) ≠ [] := by
        rw [hS0]; simp
      have hStrim : pyTrim (List.intercalate [','] ((sortUK specStr r.specs).map specStr))
          = List.intercalate [','] ((sortUK specStr r.specs).map specStr) :=
        pyTrim_eq_self hSws
      rw [hStrim, if_neg hSne, hSsplit hSne, hSparse]
      rw [canonReq, hE]
      rfl
  · -- extras present
    have hsortne : sortUK id r.extras ≠ [] := by
      rcases hEe : r.extras with _ | ⟨e0, es⟩
      · exact absurd hEe hE
      · exact sortUK_ne_nil id e0 es
    have hinname : ∀ c ∈ List.intercalate [','] (sortUK id r.extras),
        isNameChar c = true ∨ c = ',' := by
      intro c hc
      rcases mem_intercalate hc with rfl | ⟨p, hp, hcp⟩
      · exact Or.inr rfl
      · exact Or.inl (List.all_eq_true.mp (hexs p hp).2 c hcp)
    have hinws : ∀ c ∈ List.intercalate [','] (sortUK id r.extras),
        isWs c = false := by
      intro c hc
      rcases hinname c hc with hn | rfl
      · exact name_char_not_ws hn
      · decide
    have hnb : ∀ c ∈ List.intercalate [','] (sortUK id r.extras), c ≠ ']' := by
      intro c hc
      rcases hinname c hc with hn | rfl
      · exact (name_char_props hn).2.1
      · decide
    have hprint : printReqChars r
        = r.name ++ ('[' :: (List.intercalate [','] (sortUK id r.extras)
            ++ ']' :: List.intercalate [','] ((sortUK specStr r.specs).map specStr))) := by
      rw [printReqChars, if_neg hE]
      simp
    have hpws : ∀ c ∈ printReqChars r, isWs c = false := by
      rw [hprint]
      intro c hc
      rcases List.mem_append.mp hc with hn | hc2
      · exact name_char_not_ws (hnallm c hn)
      · rcases List.mem_cons.mp hc2 with rfl | hc3
        · decide
        · rcases List.mem_append.mp hc3 with hin | hc4
          · exact hinws c hin
          · rcases List.mem_cons.mp hc4 with rfl | hc5
            · decide
            · exact hSws c hc5
    have hpt : pyTrim (printReqChars r) = printReqChars r := pyTrim_eq_self hpws
    have htake : (printReqChars r).takeWhile isNameChar = r.name := by
      rw [hprint, takeWhile_append_of_all hnallm, List.takeWhile_cons,
        show isNameChar '[' = false by decide]
      simp
    have hdrop : (printReqChars r).dropWhile isNameChar
        = '[' :: (List.intercalate [','] (sortUK id r.extras)
            ++ ']' :: List.intercalate [','] ((sortUK specStr r.specs).map specStr)) := by
      rw [hprint, dropWhile_append_of_all hnallm, List.dropWhile_cons,
        show isNameChar '[' = false by decide]
      simp
    have hAfter := parseAfterName_bracket
      (List.intercalate [','] (sortUK id r.extras))
      (List.intercalate [','] ((sortUK specStr r.specs).map specStr))
      (sortUK id r.extras) hnb
      (parseExtras_intercalate (sortUK id r.extras) hsortne hexs)
    unfold parseReqChars
    rw [hpt, htake, hdrop, if_neg hnne, hAfter]
    dsimp only
    rcases hSshape with ⟨hspecs0, hS0⟩ | ⟨c0, srest, hS0, hc0⟩
    · rw [hS0]
      simp [canonReq, hspecs0, pyTrim, sortUK]
    · have hSne : List.intercalate [','] ((sortUK specStr r.specs).map specStr)
          ≠ [] := by
        rw [hS0]; simp
      have hStrim : pyTrim
          (List.intercalate [','] ((sortUK specStr r.specs).map specStr))
          = List.intercalate [','] ((sortUK specStr r.specs).map specStr) :=
        pyTrim_eq_self hSws
      rw [hStrim, if_neg hSne, hSsplit hSne, hSparse]
      rfl


/-! ### Parser well-formedness inversion -/

theorem mapMO_mem {α β : Type} (f : α → Option β) (l : List α) (out : List β)
    (h : l.mapM f = some out) : ∀ y ∈ out, ∃ x, f x = some y := by
  induction l generalizing out with
  | nil =>
    cases h
    simp
  | cons a t ih =>
    rw [List.mapM_cons] at h
    rcases hfa : f a with _ | b
    · rw [hfa] at h
      exact absurd h (by simp)
    · rw [hfa] at h
      rcases hft : t.mapM f with _ | bs
      · rw [hft] at h
        exact absurd h (by simp)
      · rw [hft] at h
        simp only [Option.pure_def, Option.bind_eq_bind, Option.some_bind,
          Option.some.injEq] at h
        subst h
        intro y hy
        rcases List.mem_cons.mp hy with rfl | hym
        · exact ⟨a, hfa⟩
        · exact ih bs hft y hym

theorem mapM_ok_forall₂ {α β : Type} (f : α → Except String β) (l : List α)
    (out : List β) (h : l.mapM f = .ok out) :
    List.Forall₂ (fun x y => f x = .ok y) l out := by
  induction l generalizing out with
  | nil =>
    cases h
    exact List.Forall₂.nil
  | cons a t ih =>
    rw [List.mapM_cons] at h
    rcases hfa : f a with e | b
    · rw [hfa] at h
      exact absurd h (by simp [bind, Except.bind])
    · rw [hfa] at h
      rcases hft : t.mapM f with e | bs
      · rw [hft] at h
        exact absurd h (by simp [bind, Except.bind])
      · rw [hft] at h
        simp only [bind, Except.bind, pure, Except.pure, Except.ok.injEq] at h
        subst h
        exact List.Forall₂.cons hfa (ih bs hft)

theorem forall₂_map_eq {α β γ : Type} (R : α → β → Prop) (g1 : α → γ)
    (g2 : β → γ) (l1 : List α) (l2 : List β) (h : List.Forall₂ R l1 l2)
    (hg : ∀ x y, R x y → g1 x = g2 y) : l1.map g1 = l2.map g2 := by
  induction h with
  | nil => rfl
  | cons hr _ ih => simp [List.map_cons, hg _ _ hr, ih]

theorem mkSpec_wf {op : Op} {rest : List Char} {sp : Spec}
    (h : mkSpec op rest = some sp) : versionOk sp.version = true := by
  unfold mkSpec at h
  split at h
  · next hv =>
    cases h
    exact hv
  · exact absurd h (by simp)

theorem parseSpec_wf {c : List Char} {sp : Spec}
    (h : parseSpecChars c = some sp) : versionOk sp.version = true := by
  unfold parseSpecChars at h
  split at h <;> first
    | exact mkSpec_wf h
    | exact absurd h (by simp)

theorem parseExtra_wf {e x : List Char} (h : parseExtra e = some x) :
    x ≠ [] ∧ x.all isNameChar = true := by
  unfold parseExtra at h
  split at h
  · next hcond =>
    cases h
    rw [Bool.and_eq_true] at hcond
    exact ⟨by simpa using hcond.1, hcond.2⟩
  · exact absurd h (by simp)

theorem parseExtras_wf {inner : List Char} {exs : List (List Char)}
    (h : parseExtrasChars inner = some exs) :
    ∀ e ∈ exs, e ≠ [] ∧ e.all isNameChar = true := by
  unfold parseExtrasChars at h
  split at h
  · cases h
    simp
  · intro e he
    obtain ⟨x, hx⟩ := mapMO_mem parseExtra _ exs h e he
    exact parseExtra_wf hx

theorem parseAfterName_wf {r1 : List Char} {extras : List (List Char)}
    {r2 : List Char} (h : parseAfterName r1 = some (extras, r2)) :
    ∀ e ∈ extras, e ≠ [] ∧ e.all isNameChar = true := by
  unfold parseAfterName at h
  split at h
  · split at h
    · rw [Option.map_eq_some'] at h
      obtain ⟨exs0, hpe, hpair⟩ := h
      have h1 : exs0 = extras := congrArg Prod.fst hpair
      subst h1
      exact parseExtras_wf hpe
    · exact absurd h (by simp)
  · cases h
    simp

theorem parse_wf {l : List Char} {r : Req} (h : parseReqChars l = some r) :
    WfReq r := by
  unfold parseReqChars at h
  split at h
  · exact absurd h (by simp)
  · next hname =>
    split at h
    · exact absurd h (by simp)
    · rename_i x extras r2 heq
      split at h
      · cases h
        refine ⟨hname, ?_, parseAfterName_wf heq, by simp⟩
        rw [List.all_eq_true]
        exact fun c hc => List.mem_takeWhile_imp hc
      · split at h
        · exact absurd h (by simp)
        · rename_i y specs heq2
          cases h
          refine ⟨hname, ?_, parseAfterName_wf heq, ?_⟩
          · rw [List.all_eq_true]
            exact fun c hc => List.mem_takeWhile_imp hc
          · intro sp hspm
            obtain ⟨z, hz⟩ := mapMO_mem parseSpecChars _ specs heq2 sp hspm
            exact parseSpec_wf hz

/-! ### The clause-rewriting loop -/

/-- Invariant of clauses produced by a successful rewrite pass: no exact pin,
no strict upper bound, and every `<=` clause carries the (valid) ceiling. -/
def specQ (ceiling : List Char) (sp : Spec) : Prop :=
  sp.op ≠ .eq ∧ sp.op ≠ .lt
    ∧ (sp.op = .le → sp.version = ceiling ∧ versionOk ceiling = true)
    ∧ versionOk sp.version = true

theorem set_append_cons {α : Type} (a : List α) (b : α) (c : List α) (x : α) :
    (a ++ b :: c).set a.length x = a ++ x :: c := by
  induction a with
  | nil => rfl
  | cons y t ih => simp [List.set, ih]

theorem rewriteGo_cons_eq (ceiling ver : List Char) (rest : List Spec)
    (i : Nat) (acc : List Spec) :
    rewriteGo ceiling ((⟨.eq, ver⟩ : Spec) :: rest) i acc
      = .error "TypeError: unsupported operand type(s) for &: 'Specifier' and 'Specifier'" := by
  rw [rewriteGo]

theorem rewriteGo_cons_le_bad (ceiling ver : List Char) (rest : List Spec)
    (i : Nat) (acc : List Spec) (hc : ¬versionOk ceiling = true) :
    rewriteGo ceiling ((⟨.le, ver⟩ : Spec) :: rest) i acc
      = .error "InvalidSpecifier" := by
  rw [rewriteGo]
  dsimp only
  rw [if_neg hc]

theorem rewriteGo_cons_lt_bad (ceiling ver : List Char) (rest : List Spec)
    (i : Nat) (acc : List Spec) (hc : ¬versionOk ceiling = true) :
    rewriteGo ceiling ((⟨.lt, ver⟩ : Spec) :: rest) i acc
      = .error "InvalidSpecifier" := by
  rw [rewriteGo]
  dsimp only
  rw [if_neg hc]

theorem rewriteGo_cons_le (ceiling ver : List Char) (rest done tail : List Spec)
    (hc : versionOk ceiling = true) :
    rewriteGo ceiling ((⟨.le, ver⟩ : Spec) :: rest) done.length
      (done ++ ((⟨.le, ver⟩ : Spec) :: rest) ++ tail)
    = rewriteGo ceiling rest ((done ++ [(⟨.le, ceiling⟩ : Spec)]).length)
      ((done ++ [(⟨.le, ceiling⟩ : Spec)]) ++ rest ++ tail) := by
  rw [rewriteGo]
  dsimp only
  rw [if_pos hc,
    show done ++ ((⟨.le, ver⟩ : Spec) :: rest) ++ tail
      = done ++ (⟨.le, ver⟩ : Spec) :: (rest ++ tail) by simp,
    set_append_cons]
  congr 1
  · simp
  · simp

theorem rewriteGo_cons_lt (ceiling ver : List Char) (rest done tail : List Spec)
    (hc : versionOk ceiling = true) :
    rewriteGo ceiling ((⟨.lt, ver⟩ : Spec) :: rest) done.length
      (done ++ ((⟨.lt, ver⟩ : Spec) :: rest) ++ tail)
    = rewriteGo ceiling rest ((done ++ [(⟨.ne, ver⟩ : Spec)]).length)
      ((done ++ [(⟨.ne, ver⟩ : Spec)]) ++ rest
        ++ (tail ++ [(⟨.le, ceiling⟩ : Spec)])) := by
  rw [rewriteGo]
  dsimp only
  rw [if_pos hc,
    show done ++ ((⟨.lt, ver⟩ : Spec) :: rest) ++ tail
      = done ++ (⟨.lt, ver⟩ : Spec) :: (rest ++ tail) by simp,
    set_append_cons]
  congr 1
  · simp
  · simp

theorem rewriteGo_cons_other (ceiling ver : List Char) (op : Op)
    (rest done tail : List Spec)
    (h1 : op ≠ .eq) (h2 : op ≠ .lt) (h3 : op ≠ .le) :
    rewriteGo ceiling ((⟨op, ver⟩ : Spec) :: rest) done.length
      (done ++ ((⟨op, ver⟩ : Spec) :: rest) ++ tail)
    = rewriteGo ceiling rest ((done ++ [(⟨op, ver⟩ : Spec)]).length)
      ((done ++ [(⟨op, ver⟩ : Spec)]) ++ rest ++ tail) := by
  cases op
  case eq => exact absurd rfl h1
  case lt => exact absurd rfl h2
  case le => exact absurd rfl h3
  all_goals {
    rw [rewriteGo]
    congr 1 <;> simp
  }

theorem rewriteGo_facts (ceiling : List Char) :
    ∀ (l done tail : List Spec),
      (∀ sp ∈ l, versionOk sp.version = true) →
      (∀ sp ∈ done, specQ ceiling sp) →
      (∀ sp ∈ tail, specQ ceiling sp) →
      (∃ e, rewriteGo ceiling l done.length (done ++ l ++ tail) = .error e)
      ∨ (∃ out, rewriteGo ceiling l done.length (done ++ l ++ tail) = .ok out
          ∧ ∀ sp ∈ out, specQ ceiling sp) := by
  intro l
  induction l with
  | nil =>
    intro done tail _ hdone htail
    refine Or.inr ⟨done ++ [] ++ tail, rfl, ?_⟩
    intro sp hsp
    rcases List.mem_append.mp hsp with hm | hm
    · rcases List.mem_append.mp hm with hm2 | hm2
      · exact hdone sp hm2
      · simp at hm2
    · exact htail sp hm
  | cons sp rest ih =>
    obtain ⟨op, ver⟩ := sp
    intro done tail hl hdone htail
    have hver : versionOk ver = true :=
      hl ⟨op, ver⟩ (List.mem_cons_self _ rest)
    have hrest : ∀ x ∈ rest, versionOk x.version = true :=
      fun x hx => hl x (List.mem_cons_of_mem _ hx)
    cases op
    case eq =>
      exact Or.inl ⟨_, rewriteGo_cons_eq ceiling ver rest _ _⟩
    case le =>
      by_cases hc : versionOk ceiling = true
      · rw [rewriteGo_cons_le ceiling ver rest done tail hc]
        refine ih (done ++ [⟨.le, ceiling⟩]) tail hrest ?_ htail
        intro x hx
        rcases List.mem_append.mp hx with hm | hm
        · exact hdone x hm
        · rw [List.mem_singleton] at hm
          subst hm
          exact ⟨by simp, by simp, fun _ => ⟨rfl, hc⟩, hc⟩
      · exact Or.inl ⟨_, rewriteGo_cons_le_bad ceiling ver rest _ _ hc⟩
    case lt =>
      by_cases hc : versionOk ceiling = true
      · rw [rewriteGo_cons_lt ceiling ver rest done tail hc]
        refine ih (done ++ [⟨.ne, ver⟩]) (tail ++ [⟨.le, ceiling⟩]) hrest ?_ ?_
        · intro x hx
          rcases List.mem_append.mp hx with hm | hm
          · exact hdone x hm
          · rw [List.mem_singleton] at hm
            subst hm
            exact ⟨by simp, by simp, by simp, hver⟩
        · intro x hx
          rcases List.mem_append.mp hx with hm | hm
          · exact htail x hm
          · rw [List.mem_singleton] at hm
            subst hm
            exact ⟨by simp, by simp, fun _ => ⟨rfl, hc⟩, hc⟩
      · exact Or.inl ⟨_, rewriteGo_cons_lt_bad ceiling ver rest _ _ hc⟩
    case ne =>
      rw [rewriteGo_cons_other ceiling ver .ne rest done tail
        (by simp) (by simp) (by simp)]
      refine ih (done ++ [⟨.ne, ver⟩]) tail hrest ?_ htail
      intro x hx
      rcases List.mem_append.mp hx with hm | hm
      · exact hdone x hm
      · rw [List.mem_singleton] at hm
        subst hm
        exact ⟨by simp, by simp, by simp, hver⟩
    case ge =>
      rw [rewriteGo_cons_other ceiling ver .ge rest done tail
        (by simp) (by simp) (by simp)]
      refine ih (done ++ [⟨.ge, ver⟩]) tail hrest ?_ htail
      intro x hx
      rcases List.mem_append.mp hx with hm | hm
      · exact hdone x hm
      · rw [List.mem_singleton] at hm
        subst hm
        exact ⟨by simp, by simp, by simp, hver⟩
    case gt =>
      rw [rewriteGo_cons_other ceiling ver .gt rest done tail
        (by simp) (by simp) (by simp)]
      refine ih (done ++ [⟨.gt, ver⟩]) tail hrest ?_ htail
      intro x hx
      rcases List.mem_append.mp hx with hm | hm
      · exact hdone x hm
      · rw [List.mem_singleton] at hm
        subst hm
        exact ⟨by simp, by simp, by simp, hver⟩
    case compat =>
      rw [rewriteGo_cons_other ceiling ver .compat rest done tail
        (by simp) (by simp) (by simp)]
      refine ih (done ++ [⟨.compat, ver⟩]) tail hrest ?_ htail
      intro x hx
      rcases List.mem_append.mp hx with hm | hm
      · exact hdone x hm
      · rw [List.mem_singleton] at hm
        subst hm
        exact ⟨by simp, by simp, by simp, hver⟩

theorem rewriteSpecs_ok_specQ (ceiling : List Char) (specs out : List Spec)
    (hwf : ∀ sp ∈ specs, versionOk sp.version = true)
    (h : rewriteSpecs ceiling specs = .ok out) : ∀ sp ∈ out, specQ ceiling sp := by
  have hfacts := rewriteGo_facts ceiling specs [] [] hwf (by simp) (by simp)
  rw [show (([] : List Spec) ++ specs ++ [] : List Spec) = specs by simp] at hfacts
  rcases hfacts with ⟨e, he⟩ | ⟨out2, hok, hq⟩
  · rw [rewriteSpecs, show (0 : Nat) = ([] : List Spec).length from rfl, he] at h
    exact absurd h (by simp)
  · rw [rewriteSpecs, show (0 : Nat) = ([] : List Spec).length from rfl, hok] at h
    cases h
    exact hq

theorem rewriteGo_noop (ceiling : List Char) :
    ∀ (l done tail : List Spec),
      (∀ sp ∈ l, specQ ceiling sp) →
      rewriteGo ceiling l done.length (done ++ l ++ tail)
        = .ok (done ++ l ++ tail) := by
  intro l
  induction l with
  | nil => intro done tail _; rfl
  | cons sp rest ih =>
    obtain ⟨op, ver⟩ := sp
    intro done tail hl
    obtain ⟨hne, hnl, hle, hv⟩ := hl ⟨op, ver⟩ (List.mem_cons_self _ rest)
    have hrest : ∀ x ∈ rest, specQ ceiling x :=
      fun x hx => hl x (List.mem_cons_of_mem _ hx)
    cases op
    case eq => exact absurd rfl hne
    case lt => exact absurd rfl hnl
    case le =>
      obtain ⟨hceq, hcok⟩ := hle rfl
      simp only at hceq
      rw [hceq]
      rw [rewriteGo_cons_le ceiling ceiling rest done tail hcok]
      rw [ih (done ++ [(⟨.le, ceiling⟩ : Spec)]) tail hrest]
      simp
    case ne =>
      rw [rewriteGo_cons_other ceiling ver .ne rest done tail
        (by simp) (by simp) (by simp),
        ih (done ++ [(⟨.ne, ver⟩ : Spec)]) tail hrest]
      simp
    case ge =>
      rw [rewriteGo_cons_other ceiling ver .ge rest done tail
        (by simp) (by simp) (by simp),
        ih (done ++ [(⟨.ge, ver⟩ : Spec)]) tail hrest]
      simp
    case gt =>
      rw [rewriteGo_cons_other ceiling ver .gt rest done tail
        (by simp) (by simp) (by simp),
        ih (done ++ [(⟨.gt, ver⟩ : Spec)]) tail hrest]
      simp
    case compat =>
      rw [rewriteGo_cons_other ceiling ver .compat rest done tail
        (by simp) (by simp) (by simp),
        ih (done ++ [(⟨.compat, ver⟩ : Spec)]) tail hrest]
      simp

theorem rewriteSpecs_noop (ceiling : List Char) (specs : List Spec)
    (h : ∀ sp ∈ specs, specQ ceiling sp) :
    rewriteSpecs ceiling specs = .ok specs := by
  have hgo := rewriteGo_noop ceiling specs [] [] h
  rw [show (([] : List Spec) ++ specs ++ [] : List Spec) = specs by simp] at hgo
  rw [rewriteSpecs, show (0 : Nat) = ([] : List Spec).length from rfl, hgo]

/-! ### Stability of the canonical form -/

theorem sortUK_nil_iff {α : Type} (k : α → List Char) (l : List α) :
    sortUK k l = [] ↔ l = [] := by
  cases l with
  | nil => simp [sortUK]
  | cons a t =>
    exact ⟨fun h => absurd h (sortUK_ne_nil k a t), by simp⟩

theorem printReq_not_ws (r : Req) (h : WfReq r) :
    ∀ c ∈ printReqChars r, isWs c = false := by
  obtain ⟨hnne, hnall, hex, hsp⟩ := h
  intro c hc
  unfold printReqChars at hc
  rcases List.mem_append.mp hc with h1 | hS
  · rcases List.mem_append.mp h1 with hn | hE
    · exact name_char_not_ws (List.all_eq_true.mp hnall c hn)
    · by_cases hEe : r.extras = []
      · rw [if_pos hEe] at hE
        simp at hE
      · rw [if_neg hEe] at hE
        rcases List.mem_cons.mp hE with rfl | hE2
        · decide
        · rcases List.mem_append.mp hE2 with hin | hbr
          · rcases mem_intercalate hin with rfl | ⟨p, hp, hcp⟩
            · decide
            · exact name_char_not_ws
                (List.all_eq_true.mp (hex p (mem_sortUK id _ p hp)).2 c hcp)
          · rw [List.mem_singleton] at hbr
            subst hbr
            decide
  · exact specsPart_not_ws r.specs hsp c hS

theorem printReq_canon (r : Req) :
    printReqChars (canonReq r) = printReqChars r := by
  have hspecs : sortUK specStr (sortUK specStr r.specs) = sortUK specStr r.specs :=
    sortUK_of_chain specStr _ (chain_sortUK specStr r.specs)
  have hext : sortUK id (sortUK id r.extras) = sortUK id r.extras :=
    sortUK_of_chain id _ (chain_sortUK id r.extras)
  unfold printReqChars canonReq
  dsimp only
  rw [hspecs, hext]
  by_cases hE : r.extras = []
  · rw [if_pos hE, if_pos (by rw [hE]; rfl)]
  · rw [if_neg hE, if_neg (fun hs => hE ((sortUK_nil_iff id r.extras).mp hs))]

theorem canonReq_wf {r : Req} (h : WfReq r) : WfReq (canonReq r) := by
  obtain ⟨hnne, hnall, hex, hsp⟩ := h
  exact ⟨hnne, hnall,
    fun e he => hex e (mem_sortUK id r.extras e he),
    fun sp hs => hsp sp (mem_sortUK specStr r.specs sp hs)⟩

/-! ### Facts about the per-requirement rewrite -/

theorem rewritePkg_name {ups : List (List Char × List Char)} {r r2 : Req}
    (h : rewritePkg ups r = .ok r2) :
    r2.name = r.name ∧ r2.extras = r.extras := by
  unfold rewritePkg at h
  rcases hlk : lookupLast r.name ups with _ | ceiling
  · rw [hlk] at h
    cases h
    exact ⟨rfl, rfl⟩
  · rw [hlk] at h
    dsimp only at h
    rcases hrs : rewriteSpecs ceiling r.specs with e | sp2
    · rw [hrs] at h
      exact absurd h (by simp)
    · rw [hrs] at h
      cases h
      exact ⟨rfl, rfl⟩

theorem rewritePkg_facts {ups : List (List Char × List Char)} {r r2 : Req}
    (hwf : WfReq r) (h : rewritePkg ups r = .ok r2) :
    WfReq r2
    ∧ ((lookupLast r.name ups = none ∧ r2 = r)
       ∨ (∃ ceiling, lookupLast r.name ups = some ceiling
           ∧ ∀ sp ∈ r2.specs, specQ ceiling sp)) := by
  unfold rewritePkg at h
  rcases hlk : lookupLast r.name ups with _ | ceiling
  · rw [hlk] at h
    cases h
    exact ⟨hwf, Or.inl ⟨rfl, rfl⟩⟩
  · rw [hlk] at h
    dsimp only at h
    rcases hrs : rewriteSpecs ceiling r.specs with e | sp2
    · rw [hrs] at h
      exact absurd h (by simp)
    · rw [hrs] at h
      cases h
      have hq := rewriteSpecs_ok_specQ ceiling r.specs sp2
        (fun sp hsp => hwf.2.2.2 sp hsp) hrs
      exact ⟨⟨hwf.1, hwf.2.1, hwf.2.2.1, fun sp hsp => (hq sp hsp).2.2.2⟩,
        Or.inr ⟨ceiling, rfl, hq⟩⟩

theorem rewritePkg_canon_stable {ups : List (List Char × List Char)}
    {r r2 : Req} (hwf : WfReq r) (h : rewritePkg ups r = .ok r2) :
    rewritePkg ups (canonReq r2) = .ok (canonReq r2) := by
  obtain ⟨hname, _⟩ := rewritePkg_name h
  obtain ⟨hwf2, hcases⟩ := rewritePkg_facts hwf h
  unfold rewritePkg
  simp only [canonReq]
  rcases hcases with ⟨hnone, rfl⟩ | ⟨ceiling, hsome, hq⟩
  · rw [hnone]
  · rw [hname, hsome]
    dsimp only
    rw [rewriteSpecs_noop ceiling (sortUK specStr r2.specs)
      fun sp hsp => hq sp (mem_sortUK specStr r2.specs sp hsp)]

theorem forall₂_exists_left {α β : Type} {R : α → β → Prop}
    {l1 : List α} {l2 : List β} (h : List.Forall₂ R l1 l2) :
    ∀ y ∈ l2, ∃ x ∈ l1, R x y := by
  induction h with
  | nil => simp
  | cons hr _ ih =>
    intro y hy
    rcases List.mem_cons.mp hy with rfl | hy2
    · exact ⟨_, List.mem_cons_self _ _, hr⟩
    · obtain ⟨x, hx, hrx⟩ := ih y hy2
      exact ⟨x, List.mem_cons_of_mem _ hx, hrx⟩

theorem forall₂_nil_right {α β : Type} {R : α → β → Prop} {l : List α}
    (h : List.Forall₂ R l []) : l = [] := by
  cases h
  rfl

theorem upgradeRequirementsChars_idem (cfg : List Char)
    (ups : List (List Char × List Char)) (out : List Char)
    (h : upgradeRequirementsChars cfg ups = .ok out) :
    upgradeRequirementsChars out ups = .ok out
    ∧ linesNames out = linesNames cfg := by
  unfold upgradeRequirementsChars at h
  rcases h1 : ((splitChar '\n' cfg).filter keepLine).mapM parseReqOrError
    with e | pkgs
  · rw [h1] at h
    exact absurd h (by simp)
  · rw [h1] at h
    dsimp only at h
    rcases h2 : pkgs.mapM (rewritePkg ups) with e | pkgs2
    · rw [h2] at h
      exact absurd h (by simp)
    · rw [h2] at h
      cases h
      have hf1 := mapM_ok_forall₂ _ _ _ h1
      have hf2 := mapM_ok_forall₂ _ _ _ h2
      have hwf1 : ∀ p ∈ pkgs, WfReq p := by
        intro p hp
        obtain ⟨line, _, hpl⟩ := forall₂_exists_left hf1 p hp
        unfold parseReqOrError at hpl
        rcases hpp : parseReqChars line with _ | rr
        · rw [hpp] at hpl
          exact absurd hpl (by simp)
        · rw [hpp] at hpl
          cases hpl
          exact parse_wf hpp
      have hwf2 : ∀ q ∈ pkgs2, WfReq q := by
        intro q hq
        obtain ⟨p, hp, hpq⟩ := forall₂_exists_left hf2 q hq
        exact (rewritePkg_facts (hwf1 p hp) hpq).1
      have hstab : ∀ q ∈ pkgs2, rewritePkg ups (canonReq q) = .ok (canonReq q) := by
        intro q hq
        obtain ⟨p, hp, hpq⟩ := forall₂_exists_left hf2 q hq
        exact rewritePkg_canon_stable (hwf1 p hp) hpq
      by_cases hnil : pkgs2 = []
      · subst hnil
        have hpk : pkgs = [] := forall₂_nil_right hf2
        subst hpk
        have hlines : (splitChar '\n' cfg).filter keepLine = [] :=
          forall₂_nil_right hf1
        constructor
        · rfl
        · show linesNames [] = linesNames cfg
          unfold linesNames
          rw [hlines]
          rfl
      · have hpne : pkgs2.map printReqChars ≠ [] := by
          intro hm
          exact hnil (by simpa using hm)
        have hnomem : ∀ p ∈ pkgs2.map printReqChars, '\n' ∉ p := by
          intro p hp hmem
          obtain ⟨q, hq, rfl⟩ := List.mem_map.mp hp
          exact absurd (printReq_not_ws q (hwf2 q hq) '\n' hmem) (by decide)
        have hsplit := splitChar_intercalate '\n' (pkgs2.map printReqChars)
          hpne hnomem
        have hkeep : (pkgs2.map printReqChars).filter keepLine
            = pkgs2.map printReqChars := by
          rw [List.filter_eq_self]
          intro p hp
          obtain ⟨q, hq, rfl⟩ := List.mem_map.mp hp
          exact keepLine_of_parse _ _ (parse_printReq q (hwf2 q hq))
        have hparse : (pkgs2.map printReqChars).mapM parseReqOrError
            = .ok (pkgs2.map canonReq) := by
          rw [mapM_ok_of_forall parseReqOrError
            (fun l => (parseReqChars l).getD ⟨[], [], []⟩)
            (pkgs2.map printReqChars) (by
              intro l hl
              obtain ⟨q, hq, rfl⟩ := List.mem_map.mp hl
              unfold parseReqOrError
              simp [parse_printReq q (hwf2 q hq)])]
          rw [List.map_map]
          exact congrArg Except.ok (List.map_congr_left fun q hq => by
            dsimp only [Function.comp]
            rw [parse_printReq q (hwf2 q hq)]
            rfl)
        have hrw : (pkgs2.map canonReq).mapM (rewritePkg ups)
            = .ok (pkgs2.map canonReq) := by
          have h0 := mapM_ok_of_forall (rewritePkg ups) id
            (pkgs2.map canonReq) (by
              intro x hx
              obtain ⟨q, hq, rfl⟩ := List.mem_map.mp hx
              exact hstab q hq)
          rw [List.map_id] at h0
          exact h0
        have hprint : (pkgs2.map canonReq).map printReqChars
            = pkgs2.map printReqChars := by
          rw [List.map_map]
          exact List.map_congr_left fun q _ => by
            dsimp only [Function.comp]
            rw [printReq_canon]
        constructor
        · unfold upgradeRequirementsChars
          rw [hsplit, hkeep, hparse]
          dsimp only
          rw [hrw]
          dsimp only
          rw [hprint]
        · unfold linesNames
          rw [hsplit, hkeep]
          have hL : ((splitChar '\n' cfg).filter keepLine).map reqNameOfLine
              = pkgs.map (fun p => some p.name) :=
            forall₂_map_eq _ reqNameOfLine (fun p => some p.name) _ _ hf1 (by
              intro x y hxy
              unfold parseReqOrError at hxy
              rcases hpp : parseReqChars x with _ | rr
              · rw [hpp] at hxy
                exact absurd hxy (by simp)
              · rw [hpp] at hxy
                cases hxy
                unfold reqNameOfLine
                rw [hpp]
                rfl)
          have hM : pkgs.map (fun p => some p.name)
              = pkgs2.map (fun q => some q.name) :=
            forall₂_map_eq _ _ _ _ _ hf2
              (fun x y hxy => by rw [(rewritePkg_name hxy).1])
          have hR : (pkgs2.map printReqChars).map reqNameOfLine
              = pkgs2.map (fun q => some q.name) := by
            rw [List.map_map]
            exact List.map_congr_left fun q hq => by
              dsimp only [Function.comp]
              unfold reqNameOfLine
              rw [parse_printReq q (hwf2 q hq)]
              rfl
          rw [hR, hL, hM]

/-- **C5.** For every requirements text and every upgraded-version mapping,
if `upgrade_requirements` succeeds then re-applying it to its own output with
the same versions returns the output unchanged (idempotence), and the
requirement name of every kept line of the output stands in exactly the
position of the corresponding kept line of the input — no line is reordered,
dropped or inserted. -/
theorem upgrade_requirements_idempotent (cfg out : String)
    (ups : List (String × String))
    (h : upgrade_requirements cfg ups = .ok out) :
    upgrade_requirements out ups = .ok out
    ∧ linesNames out.data = linesNames cfg.data := by
  unfold upgrade_requirements at h ⊢
  rcases hc : upgradeRequirementsChars cfg.data
      (ups.map fun p => (p.1.data, p.2.data)) with e | oc
  · rw [hc] at h
    exact absurd h (by simp [Except.map])
  · rw [hc] at h
    have h2 : Except.ok (String.mk oc) = Except.ok out := h
    cases h2
    obtain ⟨hi, hn⟩ := upgradeRequirementsChars_idem cfg.data _ oc hc
    constructor
    · show (upgradeRequirementsChars oc
        (ups.map fun p => (p.1.data, p.2.data))).map String.mk
          = Except.ok (String.mk oc)
      rw [hi]
      rfl
    · exact hn

/-- Witness for C5: widening `pandas<=1.2.0` (with an untouched `numpy>=1.0`
line after it) to ceiling 1.5.0 yields `pandas<=1.5.0\nnumpy>=1.0`, and the
theorem applied there gives idempotence and order preservation. -/
theorem upgrade_requirements_idempotent_witness :
    upgrade_requirements "pandas<=1.2.0\nnumpy>=1.0" [("pandas", "1.5.0")]
      = .ok "pandas<=1.5.0\nnumpy>=1.0"
    ∧ (upgrade_requirements "pandas<=1.5.0\nnumpy>=1.0" [("pandas", "1.5.0")]
        = .ok "pandas<=1.5.0\nnumpy>=1.0"
      ∧ linesNames ("pandas<=1.5.0\nnumpy>=1.0" : String).data
          = linesNames ("pandas<=1.2.0\nnumpy>=1.0" : String).data) :=
  ⟨rfl, upgrade_requirements_idempotent _ _ _ rfl⟩

end Edgetest
